import Mathlib

/-!
Verification of the GravelDB LSM storage engine against its specification.

This file gives a shallow embedding, in Lean 4, of the parts of the GravelDB
repository (github.com/MikhailWahib/graveldb) that the checked claims are
about:

* the record codec (`internal/record` / `internal/storage`):
  `[1-byte type | 4-byte BE key length | 4-byte BE value length | key | value]`;
* the skiplist memtable (`internal/memtable/skiplist.go`, the byte-slice
  variant whose `Entries` copies only `Key` and `Value`);
* the SSTable writer (`sstable.Writer`: `writeEntry`, `writeIndex`, `Finish`);
* the SSTable reader (`sstable.Reader`: `loadIndex`, `Get`);
* the k-way merger (`sstable.Merger.Merge` with `iteratorHeap`);
* the engine read path (`Engine.Get`), the flush path (`Engine.flushMemtable`)
  and the compaction step (`CompactionManager.compact`,
  `finalizeAndCleanup`);
* the WAL close path.

Files are byte lists, machine integers are `Nat` with explicit `% 2 ^ 32` /
`% 2 ^ 64` where the Go code converts through `uint32` / `uint64`, and
fallible operations return `Option` (in the pure model every read failure is
an out-of-bounds read, which is exactly the `io.EOF` case of the Go code).
Mutation is modelled by explicit state passing.
-/

namespace GravelDB

/-! ## Bytes and byte-lexicographic comparison -/

/-- A file, key, value, or buffer is a list of bytes.  Bytes are `Nat`s; all
byte values produced by the embedded encoders are `< 256`. -/
abbrev Bytes := List Nat

/-- Embeds Go `bytes.Compare`: byte-wise lexicographic comparison, a shorter
strict prefix compares less. -/
def bytesCmp : Bytes → Bytes → Ordering
  | [], [] => .eq
  | [], _ :: _ => .lt
  | _ :: _, [] => .gt
  | a :: as, b :: bs =>
    if a < b then .lt else if b < a then .gt else bytesCmp as bs

/-- Strict byte-lexicographic order, `bytes.Compare(a, b) < 0`. -/
def bytesLtB (a b : Bytes) : Bool := bytesCmp a b == .lt

/-! ## The record codec

Embeds `internal/record` (identical, up to the package name, to the
`internal/storage` codec the sstable package calls): `WriteEntryAt` /
`SerializeEntry`, `ReadEntryAt` and `DecodeEntry`. -/

/-- A database record: tagged `(type, key, value)`.  The type is kept as the
raw byte (`Set = 0`, `Delete = 1`, `Index = 2`) because decoding yields an
arbitrary byte. -/
structure Entry where
  etype : Nat
  key : Bytes
  value : Bytes
deriving Repr, DecidableEq

/-- Type code of `record.PutEntry` / `storage.SetEntry` (`iota` = 0).  Also
the zero value of the Go `EntryType` field. -/
def setCode : Nat := 0

/-- Type code of `record.DeleteEntry` / `storage.DeleteEntry`. -/
def delCode : Nat := 1

/-- Type code of `record.IndexEntry` / `storage.IndexEntry`. -/
def idxCode : Nat := 2

/-- Big-endian bytes of `uint32(n)` (`binary.BigEndian.PutUint32`; the Go
conversion truncates to 32 bits). -/
def u32be (n : Nat) : Bytes :=
  let v := n % 2 ^ 32
  [v / 2 ^ 24, v / 2 ^ 16 % 256, v / 2 ^ 8 % 256, v % 256]

/-- Big-endian bytes of `uint64(n)` (`binary.BigEndian.PutUint64`). -/
def u64be (n : Nat) : Bytes :=
  let v := n % 2 ^ 64
  [v / 2 ^ 56, v / 2 ^ 48 % 256, v / 2 ^ 40 % 256, v / 2 ^ 32 % 256,
   v / 2 ^ 24 % 256, v / 2 ^ 16 % 256, v / 2 ^ 8 % 256, v % 256]

/-- Value of a big-endian byte string (`binary.BigEndian.Uint32` /
`Uint64` applied to a buffer of the corresponding length). -/
def beVal (b : Bytes) : Nat := b.foldl (fun acc x => acc * 256 + x) 0

/-- Serialized form of an entry:
`[type | keyLen u32 BE | valLen u32 BE | key | value]`
(`record.SerializeEntry`, also the bytes `WriteEntryAt` writes; `buf[0] =
byte(e.Type)` truncates the type to one byte). -/
def encodeEntry (e : Entry) : Bytes :=
  e.etype % 256 :: (u32be e.key.length ++ u32be e.value.length ++ e.key ++ e.value)

/-- Number of bytes `encodeEntry` produces: the 9-byte prefix plus key plus
value. -/
def encLen (e : Entry) : Nat := 9 + e.key.length + e.value.length

/-- Embeds `os.File.ReadAt` into a full buffer of length `n` at offset
`off`: succeeds iff the file holds `n` bytes there (a short read is `io.EOF`
and the callers treat it as failure); reading zero bytes always succeeds. -/
def readAt (file : Bytes) (off n : Nat) : Option Bytes :=
  if n = 0 then some []
  else if off + n ≤ file.length then some ((file.drop off).take n)
  else none

/-- Embeds `os.File.WriteAt`: overwrites `data` at offset `off`, zero-filling
any gap beyond the current end of file. -/
def writeAt (file : Bytes) (off : Nat) (data : Bytes) : Bytes :=
  let f := file ++ List.replicate (off - file.length) 0
  f.take off ++ data ++ f.drop (off + data.length)

/-- Embeds `record.ReadEntryAt` / `storage.ReadEntryAt`: reads the 9-byte
prefix, then the key, then the value, and returns the entry together with the
offset just past it. -/
def readEntryAt (file : Bytes) (off : Nat) : Option (Entry × Nat) :=
  match readAt file off 9 with
  | none => none
  | some p =>
    let keyLen := beVal ((p.drop 1).take 4)
    let valLen := beVal ((p.drop 5).take 4)
    match readAt file (off + 9) keyLen with
    | none => none
    | some k =>
      match readAt file (off + 9 + keyLen) valLen with
      | none => none
      | some v =>
        some (⟨p.headD 0, k, v⟩, off + 9 + keyLen + valLen)

/-- Embeds `storage.DecodeEntry`: parses one entry from the head of a buffer
and returns it with the number of bytes consumed; fails
(`io.ErrUnexpectedEOF`) when the buffer is shorter than the prefix or than
the full record. -/
def decodeEntry (buf : Bytes) : Option (Entry × Nat) :=
  if buf.length < 9 then none
  else
    let keyLen := beVal ((buf.drop 1).take 4)
    let valLen := beVal ((buf.drop 5).take 4)
    let total := 9 + keyLen + valLen
    if buf.length < total then none
    else some (⟨buf.headD 0, (buf.drop 9).take keyLen, (buf.drop (9 + keyLen)).take valLen⟩, total)

/-! ## The skiplist memtable

Embeds the byte-slice skiplist of `internal/memtable/skiplist.go` (the
variant carrying `record.Entry` payloads) at the level of its base linked
list.  The skiplist's higher levels are a search accelerator drawn from a
per-instance random source; they never change which nodes exist at level 0,
and every cited operation (`Put`, `Get`, `Delete`, `Entries`, `Size`) is
determined by the level-0 list, which is kept in strictly ascending key
order.  We therefore model the structure as that ordered list plus the
`size` counter (a Go `int`, so `Int` here: the source subtracts from it). -/

/-- Payload of one skiplist node: the stored record's type and value
(`SkipListNode.entry`, minus the key which is held beside it). -/
structure MemRec where
  etype : Nat
  value : Bytes
deriving Repr, DecidableEq

/-- The memtable state: the level-0 node list in ascending key order, and
the running `size` field. -/
structure SkipL where
  entries : List (Bytes × MemRec)
  size : Int
deriving Repr, DecidableEq

/-- Embeds `NewSkipList` (as observable through the cited operations): no
nodes, size 0. -/
def slEmpty : SkipL := ⟨[], 0⟩

/-- Ordered insert-or-replace into the level-0 list; replacement keeps the
node position (the source overwrites `current.entry` in place). -/
def slInsert (key : Bytes) (r : MemRec) : List (Bytes × MemRec) → List (Bytes × MemRec)
  | [] => [(key, r)]
  | (k, v) :: rest =>
    match bytesCmp k key with
    | .lt => (k, v) :: slInsert key r rest
    | .eq => (key, r) :: rest
    | .gt => (key, r) :: (k, v) :: rest

/-- Embeds `SkipList.Put`: if the key exists its record (including type) is
replaced and `size` is untouched (`current.entry = entry; return`); a new
node adds `len(key) + len(value)` to `size`. -/
def slPut (sl : SkipL) (key : Bytes) (r : MemRec) : SkipL :=
  if (sl.entries.map Prod.fst).contains key then
    { sl with entries := slInsert key r sl.entries }
  else
    { entries := slInsert key r sl.entries
      size := sl.size + key.length + r.value.length }

/-- Embeds `SkipList.Get`: the record stored under `key`, if any. -/
def slGet (sl : SkipL) (key : Bytes) : Option MemRec :=
  (sl.entries.find? (fun kv => kv.1 == key)).map Prod.snd

/-- Embeds `SkipList.Delete`: a no-op when the stored record is already a
tombstone, otherwise `Put` of `(DeleteEntry, key, nil)` followed by
`size -= len(priorValue)` (the prior entry is the zero `record.Entry` when
the key is absent, so nothing is subtracted then). -/
def slDelete (sl : SkipL) (key : Bytes) : SkipL :=
  let prior := slGet sl key
  match prior with
  | some r =>
    if r.etype = delCode then sl
    else
      let sl1 := slPut sl key ⟨delCode, []⟩
      { sl1 with size := sl1.size - r.value.length }
  | none => slPut sl key ⟨delCode, []⟩

/-- Embeds `SkipList.Entries`: walks the level-0 list and copies **only**
`Key` and `Value` into fresh `record.Entry` values — the `Type` field is
left at its zero value, which is `record.PutEntry`. -/
def slEntries (sl : SkipL) : List Entry :=
  sl.entries.map (fun kv => ⟨setCode, kv.1, kv.2.value⟩)

/-- Embeds `SkipList.Size`. -/
def slSize (sl : SkipL) : Int := sl.size

/-- Embeds `SkiplistMemtable.Put`: wraps the value as a
`record.Entry{Type: record.PutEntry, Key: key, Value: value}`. -/
def memPut (sl : SkipL) (key value : Bytes) : SkipL :=
  slPut sl key ⟨setCode, value⟩

/-- Spec-side measure for claim C4: the exact sum of
`len(key) + len(value)` over the records currently stored. -/
def storedBytes (sl : SkipL) : Nat :=
  (sl.entries.map (fun kv => kv.1.length + kv.2.value.length)).sum

/-- A memtable write operation, as issued by the engine. -/
inductive MemOp where
  | put (key value : Bytes)
  | del (key : Bytes)
deriving Repr, DecidableEq

/-- Runs a sequence of `Put` / `Delete` operations on an empty memtable. -/
def runMemOps (ops : List MemOp) : SkipL :=
  ops.foldl (fun sl op => match op with
    | .put k v => memPut sl k v
    | .del k => slDelete sl k) slEmpty

/-! ## The engine read path

Embeds `Engine.Get` (the `sync.RWMutex` engine of `internal/engine/engine.go`
that holds `immutableMemtables` and `tiers [][]*sstable.Reader`).  The lock
is irrelevant to the value returned; what matters is the visit order: active
memtable, then the `immutableMemtables` slice **in slice order** (`for _, mt
:= range e.immutableMemtables`, i.e. oldest frozen first, since `Put`
appends the frozen memtable at the end), then tiers from T0 upward, within a
tier from the last index (newest) down.  Each disk probe is the outcome of
`reader.Get(key)` for the key under search: a found entry, a key-not-found
error, or an I/O error — the code only tests `err == nil`. -/

/-- Outcome of one `reader.Get(key)` call during a lookup. -/
inductive RdOutcome where
  | found (e : Entry)
  | notFound
  | ioError
deriving Repr, DecidableEq

/-- One step of the tier scan: `some result` means the loop body returned
(`entry.Type == storage.DeleteEntry` yields not-found, otherwise the value);
`none` means `err != nil`, so the loop continues with the next reader. -/
def rdStep : RdOutcome → Option (Option Bytes)
  | .found e => some (if e.etype = delCode then none else some e.value)
  | .notFound => none
  | .ioError => none

/-- The disk part of `Engine.Get`: tiers from T0 upward, within each tier
from the newest (last) reader down; the first reader whose `Get` returned
without error decides; if every probe errors the result is `(nil, false)`. -/
def engineDiskGet (tiers : List (List RdOutcome)) : Option Bytes :=
  match tiers.findSome? (fun tier => tier.reverse.findSome? rdStep) with
  | some r => r
  | none => none

/-- Memtable part of one `Engine.Get` probe: a stored tombstone yields
not-found, a stored set yields its value, absence passes to the next
source. -/
def memProbe (sl : SkipL) (key : Bytes) : Option (Option Bytes) :=
  match slGet sl key with
  | some r => some (if r.etype = delCode then none else some r.value)
  | none => none

/-- Embeds `Engine.Get`: active memtable, then the immutable memtables in
slice order (oldest frozen first), then the tiers. -/
def engineGet (mem : SkipL) (immutables : List SkipL)
    (tiers : List (List RdOutcome)) (key : Bytes) : Option Bytes :=
  match memProbe mem key with
  | some r => r
  | none =>
    match immutables.findSome? (fun mt => memProbe mt key) with
    | some r => r
    | none => engineDiskGet tiers

/-! ## The flush path

Embeds the record sequence `Engine.flushMemtable` hands to the SSTable
writer: for each element of `mt.Entries()` it calls `writer.PutEntry(key,
value)` when the entry's type is `storage.PutEntry` and
`writer.DeleteEntry(key)` when it is `storage.DeleteEntry` (other types fall
through the `switch` and write nothing).  `writer.PutEntry` appends a
`Set`-typed data record carrying the value, `writer.DeleteEntry` appends a
`Delete`-typed data record with an empty value. -/

/-- Data records that flushing the given memtable appends to the new
SSTable, in `Entries()` order. -/
def flushRecords (sl : SkipL) : List Entry :=
  (slEntries sl).flatMap (fun e =>
    if e.etype = setCode then [⟨setCode, e.key, e.value⟩]
    else if e.etype = delCode then [⟨delCode, e.key, []⟩]
    else [])

/-- Replaces every I/O-error probe outcome by a key-not-found outcome; the
engine's tier loop cannot tell the two apart. -/
def maskIOErrors (tiers : List (List RdOutcome)) : List (List RdOutcome) :=
  tiers.map (List.map (fun o => match o with | .ioError => .notFound | o => o))

/-! ## The compaction step

Embeds `CompactionManager.compact` and `finalizeAndCleanup` as a state
machine over the tier structure and the set of files on disk.  A reader is a
handle with an identity (its file) and an open flag; the model tracks, at
each failure point of the source, which handles get `Close()`d and which
files get `os.Remove()`d.  Failures of the fallible steps — `NewWriter`,
`Merge`, the output `Close` inside `finalizeAndCleanup`, and the final
`NewReader` — are injected through an environment of booleans. -/

/-- An SSTable reader handle as held in `tiers`: the number names its file,
`isOpen` tracks whether `Close()` has been called on it. -/
structure Rdr where
  rid : Nat
  isOpen : Bool
deriving Repr, DecidableEq

/-- Engine state visible to the compaction step: the tier vector and the
set of sstable files currently on disk. -/
structure CompSt where
  tiers : List (List Rdr)
  disk : List Nat
deriving Repr, DecidableEq

/-- Which fallible steps of `compact` fail in a given run. -/
structure CompEnv where
  newWriterFails : Bool
  mergeFails : Bool
  closeOutputFails : Bool
  newReaderFails : Bool
deriving Repr, DecidableEq

/-- Marks every reader of tier `t` closed (the `for _, sst := range inputs {
sst.Close() }` cleanup loops act on the same handles that stay registered in
`tiers[t]`). -/
def closeTier (tiers : List (List Rdr)) (t : Nat) : List (List Rdr) :=
  tiers.mapIdx (fun i l => if i = t then l.map (fun r => { r with isOpen := false }) else l)

/-- Extends the tier vector with empty tiers until index `t` is addressable
(`for len(cm.engine.tiers) <= tier+1 { append(tiers, nil) }`). -/
def extendTiers (tiers : List (List Rdr)) (t : Nat) : List (List Rdr) :=
  tiers ++ List.replicate (t + 1 - tiers.length) []

/-- Embeds `CompactionManager.compact(tier)` (with `finalizeAndCleanup`
inlined at its call site).  Returns `(errored, finalState)`.  `out` is the
file number the output path gets from the counter. -/
def compactModel (env : CompEnv) (st : CompSt) (tier : Nat) (out : Nat) : Bool × CompSt :=
  let inputs := st.tiers.getD tier []
  if inputs.isEmpty then (false, st)
  else
    let tiersX := extendTiers st.tiers (tier + 1)
    if env.newWriterFails then
      -- NewWriter failed: close every input reader, return the error.
      (true, { tiers := closeTier tiersX tier, disk := st.disk })
    else
      -- the output file now exists on disk
      let disk1 := st.disk ++ [out]
      if env.mergeFails then
        -- Merge failed: close the output writer and every input reader.
        (true, { tiers := closeTier tiersX tier, disk := disk1 })
      else if env.closeOutputFails then
        -- finalizeAndCleanup: output.Close() failed, close every input.
        (true, { tiers := closeTier tiersX tier, disk := disk1 })
      else
        -- finalizeAndCleanup: close every input reader and remove its file.
        let st2 : CompSt :=
          { tiers := closeTier tiersX tier
            disk := disk1.filter (fun f => ¬ (inputs.map Rdr.rid).contains f) }
        if env.newReaderFails then
          -- NewReader on the output failed: error out with inputs closed,
          -- their files already deleted, and the tier lists untouched.
          (true, st2)
        else
          (false,
            { st2 with tiers :=
                (st2.tiers.set tier []).mapIdx (fun i l =>
                  if i = tier + 1 then l ++ [⟨out, true⟩] else l) })

/-! ## The WAL close path

The buffered WAL the current engine constructs —
`wal.NewWAL(path, flushThreshold, flushInterval)` with an internal buffer,
flush timer and `closed` flag — is not among the sources; the repository
snapshot holds only its callers (`Engine.OpenDB`, `Engine.Close`) and older
unbuffered WAL variants. -/

/-- Modelled from the spec: the buffered WAL of §4.3, which is missing from
the sources (only older unbuffered variants appear in
`internal/wal/wal.go`).  State: the `closed` flag, the in-memory buffer, and
an injected I/O fault for the drain-and-sync performed by `Close`. -/
structure WALState where
  closed : Bool
  buffer : Bytes
  closeIOFails : Bool
deriving Repr, DecidableEq

/-- Modelled from the spec: `Close()` of the §4.3 WAL — "signals shutdown,
stops the timer, drains the buffer to disk with a final fsync, closes the
file.  Idempotent." and "An I/O error during `Close` is reported but
subsequent `Close` calls return success."  So a close on an already-closed
WAL returns success immediately, and a first close marks the WAL closed
whether or not its drain reported an error. -/
def walClose (w : WALState) : Option Unit × WALState :=
  if w.closed then (some (), w)
  else if w.closeIOFails then (none, { w with closed := true, buffer := [] })
  else (some (), { w with closed := true, buffer := [] })

/-! ## The SSTable writer

Embeds `sstable.Writer` (`writeEntry`, `writeIndex`, `Finish`).  All writes
go through `WriteEntryAt` / `WriteAt` at the writer's running `offset`,
which always sits at the end of the file, so the file grows by
concatenation; the model keeps the general `writeAt` anyway. -/

/-- One parsed sparse-index element: a key and the absolute file offset of
the data record it points at (`sstable.IndexEntry`). -/
structure IdxEntry where
  key : Bytes
  offset : Nat
deriving Repr, DecidableEq

instance : Inhabited IdxEntry := ⟨⟨[], 0⟩⟩

/-- State of `sstable.Writer`: output file contents, running write offset,
in-memory sparse index, measured index-section size, data-record count,
finished flag and the configured `indexInterval`. -/
structure Writer where
  file : Bytes
  offset : Nat
  index : List IdxEntry
  indexSize : Nat
  count : Nat
  finished : Bool
  indexInterval : Nat
deriving Repr, DecidableEq

/-- Embeds `NewWriter(path, indexInterval)`: the file is opened with
`O_TRUNC`, so it starts empty. -/
def newWriter (interval : Nat) : Writer :=
  ⟨[], 0, [], 0, 0, false, interval⟩

/-- Embeds `Writer.writeEntry`: writes the encoded record at the current
offset, advances the offset past it, and appends `(key, entryOffset)` to the
sparse index when `count % indexInterval == 0`; then increments `count`. -/
def writerAppend (w : Writer) (e : Entry) : Writer :=
  let bytes := encodeEntry e
  { w with
    file := writeAt w.file w.offset bytes
    offset := w.offset + bytes.length
    index := if w.count % w.indexInterval = 0 then w.index ++ [⟨e.key, w.offset⟩] else w.index
    count := w.count + 1 }

/-- Embeds `Writer.PutEntry`: rejected after `Finish`, otherwise appends a
`Set` data record. -/
def writerPutEntry (w : Writer) (key value : Bytes) : Option Writer :=
  if w.finished then none else some (writerAppend w ⟨setCode, key, value⟩)

/-- Embeds `Writer.DeleteEntry`: rejected after `Finish`, otherwise appends
a `Delete` data record with a nil value. -/
def writerDeleteEntry (w : Writer) (key : Bytes) : Option Writer :=
  if w.finished then none else some (writerAppend w ⟨delCode, key, []⟩)

/-- One iteration of `Writer.writeIndex`: an `Index` record (key only,
empty value) followed by the 8-byte big-endian data offset. -/
def writeIndexStep (w : Writer) (kv : IdxEntry) : Writer :=
  let e := encodeEntry ⟨idxCode, kv.key, []⟩
  let w1 := { w with file := writeAt w.file w.offset e, offset := w.offset + e.length }
  { w1 with file := writeAt w1.file w1.offset (u64be kv.offset), offset := w1.offset + 8 }

/-- Embeds `Writer.Finish`: a no-op when already finished; otherwise writes
the index section at the current offset, measures `indexSize`, writes the
16-byte footer `[indexOffset u64 BE | indexSize u64 BE]`, and marks the
writer finished. -/
def writerFinish (w : Writer) : Writer :=
  if w.finished then w
  else
    let indexOffset := w.offset
    let w1 := w.index.foldl writeIndexStep w
    let w2 := { w1 with indexSize := w1.offset - indexOffset }
    let footer := u64be indexOffset ++ u64be w2.indexSize
    { w2 with
      file := writeAt w2.file w2.offset footer
      offset := w2.offset + 16
      finished := true }

/-- Appends a list of data records (the loop bodies of `flushMemtable` or
the merger, which call `PutEntry` / `DeleteEntry` on an unfinished
writer). -/
def writerAppendAll (w : Writer) (recs : List Entry) : Writer :=
  recs.foldl writerAppend w

/-- Builds a finished table from a record sequence: `NewWriter`, append
every record, `Finish`. -/
def buildTable (interval : Nat) (recs : List Entry) : Writer :=
  writerFinish (writerAppendAll (newWriter interval) recs)

/-- Spec-side description of the sparse-index rule: the records whose
ordinal is a multiple of `interval`, each paired with the file offset at
which its encoding begins (the sum of the encoded lengths before it). -/
def sparseIndex (interval : Nat) (recs : List Entry) : List IdxEntry :=
  (List.range recs.length).filterMap (fun i =>
    if i % interval = 0 then
      some ⟨((recs.drop i).headD ⟨0, [], []⟩).key, ((recs.take i).map encLen).sum⟩
    else none)

/-- Recursive form of the sparse-index rule, relative to a starting ordinal
and a starting offset; used to run the induction behind the writer
invariants. -/
def sparseIndexFrom (interval count0 off0 : Nat) : List Entry → List IdxEntry
  | [] => []
  | r :: rs =>
    (if count0 % interval = 0 then [⟨r.key, off0⟩] else []) ++
      sparseIndexFrom interval (count0 + 1) (off0 + encLen r) rs

/-- Offset at which the `i`-th data record of a table built from `recs`
begins. -/
def dataOffset (recs : List Entry) (i : Nat) : Nat :=
  ((recs.take i).map encLen).sum

/-! ## The SSTable reader

Embeds `sstable.Reader` (`loadIndex` and `Get` of the `*os.File`-based
variant).  `loadIndex` reads the footer and parses the index section;
`Get` binary-searches the in-memory index and linearly scans one block.
`sort.Search(n, f)` is modelled by its contract: the least `i` with `f(i)`
true (`n` when none), which for the monotone predicates used here is what
the binary search computes. -/

/-- Embeds the index-parsing loop of `Reader.loadIndex`: alternating
`(Index record, 8-byte BE data offset)` until the buffer is consumed.  A
decode failure or a leftover shorter than a full pair
(`offset + bytesRead + 8 > indexSize`) is a corruption error. -/
def parseIndexSection (buf : Bytes) : Option (List IdxEntry) :=
  if hb : buf.length = 0 then some []
  else
    match decodeEntry buf with
    | none => none
    | some en =>
      if buf.length < en.2 + 8 then none
      else
        match parseIndexSection (buf.drop (en.2 + 8)) with
        | none => none
        | some rest => some (⟨en.1.key, beVal ((buf.drop en.2).take 8)⟩ :: rest)
termination_by buf.length
decreasing_by
  simp only [List.length_drop]
  omega

/-- Embeds `Reader.loadIndex`: a file shorter than the 16-byte footer loads
**successfully with no index** (`if stat.Size() < FooterSize { return nil
}`); otherwise the footer is read from the last 16 bytes, the index section
is read whole (`io.ReadFull` fails when the section overruns the file), and
parsed.  Returns `(index, indexBase)`. -/
def loadIndex (file : Bytes) : Option (List IdxEntry × Nat) :=
  if file.length < 16 then some ([], 0)
  else
    let footer := file.drop (file.length - 16)
    let indexOffset := beVal (footer.take 8)
    let indexSize := beVal ((footer.drop 8).take 8)
    match readAt file indexOffset indexSize with
    | none => none
    | some buf =>
      match parseIndexSection buf with
      | none => none
      | some idx => some (idx, indexOffset)

/-- The `sort.Search(len(r.index), func(i) { index[i].Key > key })` of
`Reader.Get`, by its contract: the least position whose key exceeds the
target, or the index length when none does. -/
def searchGt (idx : List IdxEntry) (key : Bytes) : Nat :=
  idx.findIdx (fun e => bytesCmp e.key key = .gt)

/-- The scan loop of `Reader.Get` over `[off, blockEnd)`: tracks the latest
record equal to the target (`lastValue`, `foundDeleted`), stops at the block
end, at a read failure (`io.EOF` in the pure model), or when the key
overshoots the target.  On a tombstone match the source resets `lastValue`
to the zero `storage.Entry` (whose `Value` is nil), modelled as `none`.  The
guard `off < en.2` before recursing is always true — `readEntryAt` returns
`off + 9 + keyLen + valLen` — and only serves the termination argument. -/
def scanLoop (file : Bytes) (key : Bytes) (blockEnd : Nat) (off : Nat)
    (lastValue : Option Entry) (foundDeleted : Bool) : Option Entry × Bool :=
  if h : off < blockEnd then
    match readEntryAt file off with
    | none => (lastValue, foundDeleted)
    | some en =>
      let c := bytesCmp en.1.key key
      let lv := if c = .eq then (if en.1.etype = delCode then none else some en.1) else lastValue
      let fd := if c = .eq then (en.1.etype == delCode) else foundDeleted
      if c = .gt then (lv, fd)
      else
        if h2 : off < en.2 then scanLoop file key blockEnd en.2 lv fd
        else (lv, fd)
  else (lastValue, foundDeleted)
termination_by blockEnd - off
decreasing_by omega

/-- Embeds `Reader.Get`: `pos` is the search result minus one; a negative
`pos` is an immediate key-not-found; `blockEnd` is the next index entry's
offset, or `indexBase` for the last one; then the block is scanned and a
tombstone or no match yields key-not-found. -/
def readerGet (file : Bytes) (idx : List IdxEntry) (indexBase : Nat)
    (key : Bytes) : Option Entry :=
  let ub := searchGt idx key
  if ub = 0 then none
  else
    let pos := ub - 1
    let blockEnd := if pos + 1 < idx.length then (idx.getD (pos + 1) default).offset else indexBase
    let res := scanLoop file key blockEnd (idx.getD pos default).offset none false
    if res.2 then none else res.1

/-- Formalization of claim C3's wording, for comparison with `readerGet`:
find the largest index position whose key is **strictly less** than the
target (none exactly when the target is not greater than every index key),
then scan the same block bounds. -/
def readerGetClaim (file : Bytes) (idx : List IdxEntry) (indexBase : Nat)
    (key : Bytes) : Option Entry :=
  let lb := idx.findIdx (fun e => ¬ bytesCmp e.key key = .lt)
  if lb = 0 then none
  else
    let pos := lb - 1
    let blockEnd := if pos + 1 < idx.length then (idx.getD (pos + 1) default).offset else indexBase
    let res := scanLoop file key blockEnd (idx.getD pos default).offset none false
    if res.2 then none else res.1

/-- Embeds the reader-registration loop of `Engine.parseTiers` for one tier
directory, over the candidate files in directory order: a file whose
`NewReader` fails is skipped with a logged warning (`continue`), a file
whose `NewReader` succeeds is appended. -/
def parseTierFiles (files : List Bytes) : List (List IdxEntry × Nat) :=
  files.filterMap loadIndex

/-! ## The merger

Embeds `sstable.Merger.Merge` (the `*Reader`-sourced variant whose heap
`Less` orders by key ascending and, on equal keys, by **higher** priority
first, priorities being the source indices).  A source is modelled by its
data-section record sequence, which is exactly what its iterator streams
(`Iterator.Next` walks `[0, indexBase)` in file order).  `container/heap`
always pops a `Less`-minimal element; because the live items carry pairwise
distinct priorities (one item per source iterator) the minimum is unique, so
the heap is modelled as a list popped via a select-the-minimum function.
The loop runs one iteration per remaining record occurrence, so it is
written with an explicit fuel equal to that count. -/

/-- A record instance tagged with its source priority, as held in an
`iteratorItem`: `key`, `deleted = iter.IsDeleted()`, `value = iter.Value()`
(nil for deleted records). -/
structure PRec where
  prio : Nat
  key : Bytes
  deleted : Bool
  value : Bytes
deriving Repr, DecidableEq

/-- A live heap item: the current record plus the source iterator's
remaining records. -/
structure MItem where
  pr : PRec
  rest : List Entry
deriving Repr, DecidableEq

/-- Builds the `iteratorItem` for a freshly read record: `IsDeleted` tests
the type against `storage.DeleteEntry`, `Value()` is nil for deletes. -/
def mkItem (prio : Nat) (e : Entry) (rest : List Entry) : MItem :=
  ⟨⟨prio, e.key, e.etype == delCode, if e.etype == delCode then [] else e.value⟩, rest⟩

/-- Embeds `iteratorHeap.Less`: key ascending; on equal keys the higher
priority (newer source) is smaller, i.e. wins the pop. -/
def itemLess (a b : PRec) : Bool :=
  match bytesCmp a.key b.key with
  | .lt => true
  | .gt => false
  | .eq => b.prio < a.prio

/-- Pops a `Less`-minimal item (what `heap.Pop` returns; unique for the
distinct-priority item sets the merger builds). -/
def popMin : List MItem → Option (MItem × List MItem)
  | [] => none
  | x :: xs =>
    match popMin xs with
    | none => some (x, [])
    | some (m, rest) =>
      if itemLess m.pr x.pr then some (m, x :: rest) else some (x, m :: rest)

/-- Advancing an item's iterator after a pop: push the next record if the
iterator has one (`if item.iter.Next() { heap.Push(...) }`). -/
def advanceItem (it : MItem) : List MItem :=
  match it.rest with
  | [] => []
  | e :: r => [mkItem it.pr.prio e r]

/-- The record the merger writes for a popped item:
`output.DeleteEntry(key)` for a deleted item, else
`output.PutEntry(key, value)`. -/
def outRec (p : PRec) : Entry :=
  if p.deleted then ⟨delCode, p.key, []⟩ else ⟨setCode, p.key, p.value⟩

/-- Initial heap contents: one item per non-empty source, with priority
equal to the source index. -/
def initItems (sources : List (List Entry)) : List MItem :=
  sources.enum.filterMap (fun is =>
    match is.2 with
    | [] => none
    | e :: rest => some (mkItem is.1 e rest))

/-- Number of record occurrences still held by the heap; the merge loop
consumes exactly one per iteration. -/
def mergeFuel (items : List MItem) : Nat :=
  (items.map (fun it => 1 + it.rest.length)).sum

/-- The merge loop: pop the minimal item; a popped key equal to `lastKey`
is a duplicate from an older source and is skipped (its iterator still
advances); otherwise the record is written and becomes `lastKey`.  The
first fuel argument bounds the iteration count; `mergeRun` supplies the
exact bound, so the zero-fuel branch is never taken. -/
def mergeLoop : Nat → List MItem → Option Bytes → List Entry
  | 0, _, _ => []
  | fuel + 1, items, lastKey =>
    match popMin items with
    | none => []
    | some (it, rest) =>
      let items2 := rest ++ advanceItem it
      match lastKey with
      | some lk =>
        if it.pr.key == lk then mergeLoop fuel items2 lastKey
        else outRec it.pr :: mergeLoop fuel items2 (some it.pr.key)
      | none => outRec it.pr :: mergeLoop fuel items2 (some it.pr.key)

/-- Embeds `Merger.Merge`: the data records written to the output writer,
given the sources' data-record sequences earliest-first. -/
def mergeRun (sources : List (List Entry)) : List Entry :=
  mergeLoop (mergeFuel (initItems sources)) (initItems sources) none

/-- The popped-record sequence of the same loop, used to factor the
correctness proof: `mergeLoop` emits this sequence with
consecutive-duplicate keys dropped. -/
def popSeq : Nat → List MItem → List PRec
  | 0, _ => []
  | fuel + 1, items =>
    match popMin items with
    | none => []
    | some (it, rest) => it.pr :: popSeq fuel (rest ++ advanceItem it)

/-- Emission pass over a popped-record sequence: keep a record unless its
key equals the previously emitted key. -/
def emitSeq : List PRec → Option Bytes → List Entry
  | [], _ => []
  | p :: rest, lastKey =>
    match lastKey with
    | some lk =>
      if p.key == lk then emitSeq rest lastKey
      else outRec p :: emitSeq rest (some p.key)
    | none => outRec p :: emitSeq rest (some p.key)

/-- The key chain of a heap item: its current key followed by the keys of
its remaining records.  An item built from an SSTable iterator has a
strictly ascending chain because the table's data section does. -/
def itemChain (it : MItem) : List Bytes := it.pr.key :: it.rest.map Entry.key

/-- Invariant of the merge heap: item priorities are pairwise distinct (one
item per source iterator, priority = source index) and every item's key
chain is strictly ascending. -/
def WFHeap (items : List MItem) : Prop :=
  (items.map (fun it => it.pr.prio)).Pairwise (fun a b => a ≠ b) ∧
  ∀ it ∈ items, (itemChain it).Pairwise (fun a b => bytesCmp a b = .lt)

/-! Spec-side definitions for claim C2 (from the claim's words, to be
compared with `mergeRun`). -/

/-- All record instances of the inputs, tagged with their source's
priority (its index). -/
def allPRecs (sources : List (List Entry)) : List PRec :=
  sources.enum.flatMap (fun is => is.2.map (fun e => (mkItem is.1 e []).pr))

/-- Record instances held by a heap item (current plus remaining). -/
def itemPRecs (it : MItem) : List PRec :=
  it.pr :: it.rest.map (fun e => (mkItem it.pr.prio e []).pr)

/-- Record instances held by a whole heap. -/
def heapPRecs (items : List MItem) : List PRec :=
  items.flatMap itemPRecs

/-- Insertion into an ascending duplicate-free key list. -/
def insKey (k : Bytes) : List Bytes → List Bytes
  | [] => [k]
  | x :: xs =>
    match bytesCmp k x with
    | .lt => k :: x :: xs
    | .eq => x :: xs
    | .gt => x :: insKey k xs

/-- The ascending duplicate-free list of a key multiset. -/
def sortedKeys (l : List Bytes) : List Bytes := l.foldr insKey []

/-- The record instance of the highest-priority source containing `k`
(unique when priorities are distinct per key). -/
def newestFor (l : List PRec) (k : Bytes) : Option PRec :=
  l.find? (fun p => p.key == k && l.all (fun q => !(q.key == k) || q.prio ≤ p.prio))

/-- Spec-side merge result per claim C2: for each distinct input key in
ascending order, the record of the highest-priority input containing it,
tombstones included. -/
def canonicalMerge (sources : List (List Entry)) : List Entry :=
  (sortedKeys ((allPRecs sources).map PRec.key)).filterMap
    (fun k => (newestFor (allPRecs sources) k).map outRec)

/-! ## Remaining spec-side definitions -/

/-- Spec-side for claim C3: the largest index position whose key compares
less than or equal to the target; `none` when there is no such position. -/
def largestLE (idx : List IdxEntry) (key : Bytes) : Option Nat :=
  ((List.range idx.length).filter
    (fun i => ¬ bytesCmp (idx.getD i default).key key = .gt)).max?

/-- Encoding of one sparse-index pair: an `Index` record (key only)
followed by the 8-byte big-endian data offset. -/
def encodeIdxPair (e : IdxEntry) : Bytes :=
  encodeEntry ⟨idxCode, e.key, []⟩ ++ u64be e.offset

/-- Encoding of a whole index section. -/
def encodeIdxSection (l : List IdxEntry) : Bytes :=
  l.flatMap encodeIdxPair

/-- An SSTable image assembled from a data section, an index section and
the footer describing the index section, per the file-format section of the
spec. -/
def mkTableFile (data isec : Bytes) : Bytes :=
  data ++ isec ++ u64be data.length ++ u64be isec.length

/-- Ordinals the writer indexes: the `i < n` with `i % interval = 0`,
in ascending order. -/
def selOrds (interval n : Nat) : List Nat :=
  (List.range n).filter (fun i => i % interval = 0)

/-- Key of the `i`-th data record. -/
def recKey (recs : List Entry) (i : Nat) : Bytes := (recs.getD i ⟨0, [], []⟩).key

/-! # Theorems -/

/-! ## Byte-level helper lemmas -/

theorem u32be_length (n : Nat) : (u32be n).length = 4 := rfl

theorem u64be_length (n : Nat) : (u64be n).length = 8 := rfl

theorem beVal_u32be (n : Nat) (h : n < 2 ^ 32) : beVal (u32be n) = n := by
  simp only [u32be, beVal, List.foldl]
  have : n % 2 ^ 32 = n := Nat.mod_eq_of_lt h
  rw [this]
  omega

theorem beVal_u64be (n : Nat) (h : n < 2 ^ 64) : beVal (u64be n) = n := by
  simp only [u64be, beVal, List.foldl]
  have : n % 2 ^ 64 = n := Nat.mod_eq_of_lt h
  rw [this]
  omega

theorem encodeEntry_length (e : Entry) : (encodeEntry e).length = encLen e := by
  simp [encodeEntry, encLen, u32be]
  omega

theorem encLen_pos (e : Entry) : 9 ≤ encLen e := by
  simp [encLen]; omega

/-! ## Byte-comparison lemmas (`bytesCmp` is a strict linear comparison) -/

theorem bytesCmp_eq_iff : ∀ a b : Bytes, bytesCmp a b = .eq ↔ a = b
  | [], [] => by simp [bytesCmp]
  | [], _ :: _ => by simp [bytesCmp]
  | _ :: _, [] => by simp [bytesCmp]
  | x :: xs, y :: ys => by
    unfold bytesCmp
    by_cases h1 : x < y
    · simp [h1]; omega
    · by_cases h2 : y < x
      · simp [h1, h2]; omega
      · have hxy : x = y := by omega
        simp [h1, h2, hxy, bytesCmp_eq_iff xs ys]

theorem bytesCmp_refl (a : Bytes) : bytesCmp a a = .eq := (bytesCmp_eq_iff a a).mpr rfl

theorem bytesCmp_lt_gt : ∀ a b : Bytes, bytesCmp a b = .lt ↔ bytesCmp b a = .gt
  | [], [] => by simp [bytesCmp]
  | [], _ :: _ => by simp [bytesCmp]
  | _ :: _, [] => by simp [bytesCmp]
  | x :: xs, y :: ys => by
    unfold bytesCmp
    by_cases h1 : x < y
    · have h2 : ¬ y < x := by omega
      simp [h1, h2]
    · by_cases h2 : y < x
      · simp [h1, h2]
      · simp [h1, h2, bytesCmp_lt_gt xs ys]

theorem bytesCmp_lt_trans : ∀ a b c : Bytes,
    bytesCmp a b = .lt → bytesCmp b c = .lt → bytesCmp a c = .lt
  | [], [], _ => by simp [bytesCmp]
  | [], _ :: _, [] => by simp [bytesCmp]
  | [], _ :: _, _ :: _ => by simp [bytesCmp]
  | _ :: _, [], _ => by simp [bytesCmp]
  | x :: xs, y :: ys, [] => by simp [bytesCmp]
  | x :: xs, y :: ys, z :: zs => by
    intro h1 h2
    unfold bytesCmp at h1 h2 ⊢
    by_cases hxy : x < y
    · by_cases hyz : y < z
      · simp [show x < z by omega]
      · by_cases hzy : z < y
        · simp [hyz, hzy] at h2
        · have : y = z := by omega
          simp [show x < z by omega]
    · by_cases hyx : y < x
      · simp [hxy, hyx] at h1
      · have hxy2 : x = y := by omega
        subst hxy2
        by_cases hyz : x < z
        · simp [hyz]
        · by_cases hzy : z < x
          · simp [hyz, hzy] at h2
          · simp [hxy, hyz, hzy] at h1 h2 ⊢
            exact bytesCmp_lt_trans xs ys zs h1 h2

/-- Not-greater followed by strictly-less composes to strictly-less. -/
theorem bytesCmp_le_lt_trans {a b c : Bytes}
    (h1 : bytesCmp a b ≠ .gt) (h2 : bytesCmp b c = .lt) : bytesCmp a c = .lt := by
  cases hab : bytesCmp a b with
  | lt => exact bytesCmp_lt_trans a b c hab h2
  | eq => rw [(bytesCmp_eq_iff a b).mp hab]; exact h2
  | gt => exact absurd hab h1

/-- Strictly-less followed by not-greater composes to strictly-less. -/
theorem bytesCmp_lt_le_trans {a b c : Bytes}
    (h1 : bytesCmp a b = .lt) (h2 : bytesCmp b c ≠ .gt) : bytesCmp a c = .lt := by
  cases hbc : bytesCmp b c with
  | lt => exact bytesCmp_lt_trans a b c h1 hbc
  | eq => rw [← (bytesCmp_eq_iff b c).mp hbc]; exact h1
  | gt => exact absurd hbc h2

theorem headD_drop_getD : ∀ (l : List Entry) (i : Nat),
    (l.drop i).headD (⟨0, [], []⟩ : Entry) = l.getD i ⟨0, [], []⟩
  | [], i => by cases i <;> rfl
  | x :: xs, 0 => rfl
  | x :: xs, i + 1 => headD_drop_getD xs i

/-- Reading a fully-contained slice of the middle section of a file. -/
theorem readAt_section (pre mid suf : Bytes) (a n : Nat) (h : a + n ≤ mid.length) :
    readAt (pre ++ (mid ++ suf)) (pre.length + a) n = some ((mid.drop a).take n) := by
  unfold readAt
  by_cases hn : n = 0
  · simp [hn]
  · have hlen : pre.length + a + n ≤ (pre ++ (mid ++ suf)).length := by
      simp [List.length_append]; omega
    rw [if_neg hn, if_pos hlen]
    congr 1
    have e1 : (pre ++ (mid ++ suf)).drop (pre.length + a) = mid.drop a ++ suf := by
      rw [List.drop_append_eq_append_drop]
      have h1 : pre.drop (pre.length + a) = [] := List.drop_eq_nil_of_le (by omega)
      have h2 : pre.length + a - pre.length = a := by omega
      rw [h1, h2, List.nil_append, List.drop_append_eq_append_drop]
      have h3 : a - mid.length = 0 := by omega
      rw [h3, List.drop_zero]
    rw [e1, List.take_append_eq_append_take]
    have h4 : n - (mid.drop a).length = 0 := by
      rw [List.length_drop]; omega
    rw [h4]
    simp

/-- Reading a record that sits, fully encoded, in the middle of a file. -/
theorem readEntryAt_encode (pre suf : Bytes) (e : Entry)
    (hk : e.key.length < 2 ^ 32) (hv : e.value.length < 2 ^ 32) (ht : e.etype < 256) :
    readEntryAt (pre ++ (encodeEntry e ++ suf)) pre.length
      = some (e, pre.length + encLen e) := by
  have h9 : readAt (pre ++ (encodeEntry e ++ suf)) pre.length 9
      = some ((encodeEntry e).take 9) := by
    have := readAt_section pre (encodeEntry e) suf 0 9
      (by rw [encodeEntry_length]; have := encLen_pos e; omega)
    simpa using this
  have htake : (encodeEntry e).take 9
      = e.etype % 256 :: (u32be e.key.length ++ u32be e.value.length) := by
    simp [encodeEntry, u32be, List.take_append_eq_append_take]
  have hkeyLen : beVal ((((encodeEntry e).take 9).drop 1).take 4) = e.key.length := by
    rw [htake]
    have h1 : ((e.etype % 256 :: (u32be e.key.length ++ u32be e.value.length)).drop 1).take 4
        = u32be e.key.length := by
      simp [u32be]
    rw [h1, beVal_u32be _ hk]
  have hvalLen : beVal ((((encodeEntry e).take 9).drop 5).take 4) = e.value.length := by
    rw [htake]
    have h1 : ((e.etype % 256 :: (u32be e.key.length ++ u32be e.value.length)).drop 5).take 4
        = u32be e.value.length := by
      simp [u32be]
    rw [h1, beVal_u32be _ hv]
  have hd9 : (encodeEntry e).drop 9 = e.key ++ e.value := by
    simp [encodeEntry, u32be]
  have hkey : readAt (pre ++ (encodeEntry e ++ suf)) (pre.length + 9) e.key.length
      = some e.key := by
    have hb : 9 + e.key.length ≤ (encodeEntry e).length := by
      rw [encodeEntry_length]; unfold encLen; omega
    rw [readAt_section pre (encodeEntry e) suf 9 e.key.length hb]
    congr 1
    rw [hd9, List.take_append_eq_append_take]
    simp
  have hval : readAt (pre ++ (encodeEntry e ++ suf)) (pre.length + 9 + e.key.length)
      e.value.length = some e.value := by
    have hb : (9 + e.key.length) + e.value.length ≤ (encodeEntry e).length := by
      rw [encodeEntry_length]; unfold encLen; omega
    rw [Nat.add_assoc,
      readAt_section pre (encodeEntry e) suf (9 + e.key.length) e.value.length hb]
    congr 1
    have hdrop : (encodeEntry e).drop (9 + e.key.length) = e.value := by
      rw [← List.drop_drop, hd9, List.drop_append_eq_append_drop]
      simp
    rw [hdrop]
    simp
  unfold readEntryAt
  rw [h9]
  simp only [hkeyLen, hvalLen, hkey, hval]
  have hhead : ((encodeEntry e).take 9).headD 0 = e.etype := by
    rw [htake]
    simp [Nat.mod_eq_of_lt ht]
  rw [hhead]
  unfold encLen
  simp [Nat.add_assoc]

/-! ## Writer invariants -/

theorem writeAt_eof (f d : Bytes) : writeAt f f.length d = f ++ d := by
  unfold writeAt
  simp

theorem writerAppendAll_spec (recs : List Entry) :
    ∀ w : Writer, w.offset = w.file.length →
    (writerAppendAll w recs).file = w.file ++ recs.flatMap encodeEntry ∧
    (writerAppendAll w recs).offset = w.offset + (recs.map encLen).sum ∧
    (writerAppendAll w recs).count = w.count + recs.length ∧
    (writerAppendAll w recs).finished = w.finished ∧
    (writerAppendAll w recs).indexInterval = w.indexInterval ∧
    (writerAppendAll w recs).indexSize = w.indexSize ∧
    (writerAppendAll w recs).index
      = w.index ++ sparseIndexFrom w.indexInterval w.count w.offset recs := by
  induction recs with
  | nil => intro w _; simp [writerAppendAll, sparseIndexFrom]
  | cons r rs ih =>
    intro w hw
    have hstep : writerAppendAll w (r :: rs) = writerAppendAll (writerAppend w r) rs := rfl
    have hfile : (writerAppend w r).file = w.file ++ encodeEntry r := by
      simp only [writerAppend, hw, writeAt_eof]
    have hoff : (writerAppend w r).offset = w.offset + encLen r := by
      simp [writerAppend, encodeEntry_length]
    have hinv : (writerAppend w r).offset = (writerAppend w r).file.length := by
      rw [hoff, hfile, List.length_append, encodeEntry_length, hw]
    obtain ⟨h1, h2, h3, h4, h5, h6, h7⟩ := ih (writerAppend w r) hinv
    rw [hstep]
    refine ⟨?_, ?_, ?_, ?_, ?_, ?_, ?_⟩
    · rw [h1, hfile]
      simp [List.append_assoc]
    · rw [h2, hoff]
      simp [Nat.add_assoc]
    · rw [h3]; simp [writerAppend]; omega
    · rw [h4]; simp [writerAppend]
    · rw [h5]; simp [writerAppend]
    · rw [h6]; simp [writerAppend]
    · rw [h7, hoff]
      have hidx : (writerAppend w r).index
          = w.index ++ (if w.count % w.indexInterval = 0 then [⟨r.key, w.offset⟩] else []) := by
        simp only [writerAppend]
        split <;> simp
      have hint : (writerAppend w r).indexInterval = w.indexInterval := by simp [writerAppend]
      have hcnt : (writerAppend w r).count = w.count + 1 := by simp [writerAppend]
      rw [hidx, hint, hcnt, List.append_assoc]
      rfl

theorem writeIndexAll_spec (idx : List IdxEntry) :
    ∀ w : Writer, w.offset = w.file.length →
    (idx.foldl writeIndexStep w).file = w.file ++ encodeIdxSection idx ∧
    (idx.foldl writeIndexStep w).offset = w.offset + (encodeIdxSection idx).length ∧
    (idx.foldl writeIndexStep w).index = w.index ∧
    (idx.foldl writeIndexStep w).count = w.count ∧
    (idx.foldl writeIndexStep w).finished = w.finished ∧
    (idx.foldl writeIndexStep w).indexInterval = w.indexInterval ∧
    (idx.foldl writeIndexStep w).indexSize = w.indexSize := by
  induction idx with
  | nil => intro w _; simp [encodeIdxSection]
  | cons kv rest ih =>
    intro w hw
    have hfile : (writeIndexStep w kv).file = w.file ++ encodeIdxPair kv := by
      simp only [writeIndexStep, hw, writeAt_eof]
      have hlen : w.file.length + (encodeEntry ⟨idxCode, kv.key, []⟩).length
          = (w.file ++ encodeEntry ⟨idxCode, kv.key, []⟩).length := by
        rw [List.length_append]
      rw [hlen, writeAt_eof]
      simp [encodeIdxPair, List.append_assoc]
    have hoff : (writeIndexStep w kv).offset = w.offset + (encodeIdxPair kv).length := by
      simp [writeIndexStep, encodeIdxPair, List.length_append, u64be_length]
      omega
    have hinv : (writeIndexStep w kv).offset = (writeIndexStep w kv).file.length := by
      rw [hoff, hfile, List.length_append, hw]
    obtain ⟨h1, h2, h3, h4, h5, h6, h7⟩ := ih (writeIndexStep w kv) hinv
    have hrest : (kv :: rest).foldl writeIndexStep w
        = rest.foldl writeIndexStep (writeIndexStep w kv) := rfl
    rw [hrest]
    refine ⟨?_, ?_, ?_, ?_, ?_, ?_, ?_⟩
    · rw [h1, hfile]
      simp [encodeIdxSection, List.append_assoc]
    · rw [h2, hoff]
      simp [encodeIdxSection, List.length_append, Nat.add_assoc]
    · rw [h3]; simp [writeIndexStep]
    · rw [h4]; simp [writeIndexStep]
    · rw [h5]; simp [writeIndexStep]
    · rw [h6]; simp [writeIndexStep]
    · rw [h7]; simp [writeIndexStep]

/-- Full layout of a finished table: the data section, the encoded index
section, and the footer naming the index offset and size. -/
theorem writerFinish_spec (w : Writer) (hw : w.offset = w.file.length)
    (hf : w.finished = false) :
    (writerFinish w).file
      = w.file ++ encodeIdxSection w.index
          ++ (u64be w.offset ++ u64be (encodeIdxSection w.index).length) ∧
    (writerFinish w).indexSize = (encodeIdxSection w.index).length ∧
    (writerFinish w).index = w.index ∧
    (writerFinish w).offset = w.offset + (encodeIdxSection w.index).length + 16 := by
  obtain ⟨h1, h2, h3, h4, h5, h6, h7⟩ := writeIndexAll_spec w.index w hw
  unfold writerFinish
  rw [hf]
  simp only [Bool.false_eq_true, if_false]
  have hs : (w.index.foldl writeIndexStep w).offset - w.offset
      = (encodeIdxSection w.index).length := by omega
  have hinv2 : (w.index.foldl writeIndexStep w).offset
      = (w.index.foldl writeIndexStep w).file.length := by
    rw [h2, h1, List.length_append, hw]
  refine ⟨?_, by simp [hs], by simp [h3], ?_⟩
  · rw [hs, hinv2, writeAt_eof, h1]
  · simp only [hs, h2]

theorem flatMap_encode_length (l : List Entry) :
    (l.flatMap encodeEntry).length = (l.map encLen).sum := by
  induction l with
  | nil => rfl
  | cons r rs ih => simp [List.flatMap_cons, List.length_append, encodeEntry_length, ih]

theorem sparseIndexFrom_eq (interval : Nat) (rs : List Entry) :
    ∀ c o : Nat, sparseIndexFrom interval c o rs
      = (List.range rs.length).filterMap (fun i =>
          if (c + i) % interval = 0 then
            some ⟨((rs.drop i).headD ⟨0, [], []⟩).key, o + ((rs.take i).map encLen).sum⟩
          else none) := by
  induction rs with
  | nil => intro c o; simp [sparseIndexFrom]
  | cons r rs ih =>
    intro c o
    have hrec : sparseIndexFrom interval c o (r :: rs)
        = (if c % interval = 0 then [(⟨r.key, o⟩ : IdxEntry)] else [])
          ++ sparseIndexFrom interval (c + 1) (o + encLen r) rs := rfl
    have hcomp : ((fun i => if (c + i) % interval = 0 then
          some (⟨(((r :: rs).drop i).headD ⟨0, [], []⟩).key,
            o + (((r :: rs).take i).map encLen).sum⟩ : IdxEntry) else none) ∘ Nat.succ)
        = (fun i => if (c + 1 + i) % interval = 0 then
            some (⟨((rs.drop i).headD ⟨0, [], []⟩).key,
              (o + encLen r) + ((rs.take i).map encLen).sum⟩ : IdxEntry) else none) := by
      funext i
      have e1 : c + Nat.succ i = c + 1 + i := by omega
      have e3 : ((r :: rs).take (Nat.succ i)).map encLen
          = encLen r :: (rs.take i).map encLen := rfl
      show (if (c + Nat.succ i) % interval = 0 then
          some (⟨(((r :: rs).drop (Nat.succ i)).headD ⟨0, [], []⟩).key,
            o + (((r :: rs).take (Nat.succ i)).map encLen).sum⟩ : IdxEntry) else none) = _
      rw [e1, e3]
      have e4 : o + (encLen r + ((rs.take i).map encLen).sum)
          = o + encLen r + ((rs.take i).map encLen).sum := by omega
      simp only [List.drop_succ_cons, List.sum_cons, e4]
    rw [hrec, ih (c + 1) (o + encLen r),
      show (r :: rs).length = rs.length + 1 from rfl, List.range_succ_eq_map,
      List.filterMap_cons, List.filterMap_map, hcomp]
    by_cases hc : c % interval = 0 <;> simp [hc]

theorem dataOffset_succ (recs : List Entry) (i : Nat) (h : i < recs.length) :
    dataOffset recs (i + 1) = dataOffset recs i + encLen (recs.getD i ⟨0, [], []⟩) := by
  unfold dataOffset
  rw [List.take_succ]
  have : recs[i]? = some (recs.getD i ⟨0, [], []⟩) := by
    rw [List.getElem?_eq_getElem h]
    simp [List.getD_eq_getElem?_getD, List.getElem?_eq_getElem h]
  rw [this]
  simp

/-! ## Claim C6

The writer indexes exactly the data records whose ordinal satisfies
`count % indexInterval == 0` (the ordinal starts at 0, so the first record
is always indexed), pairing each key with the offset at which the record's
encoding begins; and `Finish` lays the file out as `data ++ index ++
footer` with `file_size = indexOffset + indexSize + 16`. -/

/-- Claim C6: for a writer with positive `indexInterval` fed the data
records `recs` and finished, (1) the sparse index is exactly the ordinals
with `i % interval = 0`, each pairing the record's key with the offset
where its encoding begins; (2) the finished file's size equals
`indexOffset + indexSize + 16`, `indexOffset` being the offset the data
section ends at; (3) each `dataOffset` really is where the corresponding
record begins: reading the finished file there returns that record and the
next record's offset. -/
theorem c6_sparse_index_and_footer (interval : Nat) (recs : List Entry)
    (hpos : 0 < interval)
    (hwf : ∀ e ∈ recs, e.etype < 256 ∧ e.key.length < 2 ^ 32 ∧ e.value.length < 2 ^ 32) :
    (writerAppendAll (newWriter interval) recs).index = sparseIndex interval recs ∧
    (buildTable interval recs).file.length
      = (writerAppendAll (newWriter interval) recs).offset
        + (buildTable interval recs).indexSize + 16 ∧
    (∀ i, i < recs.length →
      readEntryAt (buildTable interval recs).file (dataOffset recs i)
        = some (recs.getD i ⟨0, [], []⟩, dataOffset recs (i + 1))) := by
  obtain ⟨a1, a2, a3, a4, a5, a6, a7⟩ := writerAppendAll_spec recs (newWriter interval) rfl
  have hidx : (writerAppendAll (newWriter interval) recs).index
      = sparseIndex interval recs := by
    rw [a7]
    show sparseIndexFrom interval 0 0 recs = sparseIndex interval recs
    rw [sparseIndexFrom_eq]
    unfold sparseIndex
    simp
  have hinv : (writerAppendAll (newWriter interval) recs).offset
      = (writerAppendAll (newWriter interval) recs).file.length := by
    rw [a2, a1, List.length_append, flatMap_encode_length]
    rfl
  have hfin : (writerAppendAll (newWriter interval) recs).finished = false := by
    rw [a4]; rfl
  obtain ⟨f1, f2, f3, f4⟩ :=
    writerFinish_spec (writerAppendAll (newWriter interval) recs) hinv hfin
  have hbt : buildTable interval recs
      = writerFinish (writerAppendAll (newWriter interval) recs) := rfl
  refine ⟨hidx, ?_, ?_⟩
  · rw [hbt, f1, f2]
    simp only [List.length_append, u64be_length]
    omega
  · intro i hi
    have hget : recs.getD i ⟨0, [], []⟩ ∈ recs := by
      have h1 : recs.getD i ⟨0, [], []⟩ = recs.get ⟨i, hi⟩ := by
        simp [List.getD_eq_getElem?_getD, List.getElem?_eq_getElem hi]
      rw [h1]
      exact List.get_mem recs i hi
    obtain ⟨ht, hk, hv⟩ := hwf _ hget
    have hsplit : recs.flatMap encodeEntry
        = (recs.take i).flatMap encodeEntry
          ++ (encodeEntry (recs.getD i ⟨0, [], []⟩)
            ++ (recs.drop (i + 1)).flatMap encodeEntry) := by
      conv_lhs => rw [← List.take_append_drop i recs]
      rw [List.flatMap_append]
      congr 1
      have hdi : recs.drop i = recs.getD i ⟨0, [], []⟩ :: recs.drop (i + 1) := by
        have h1 : recs.getD i ⟨0, [], []⟩ = recs.get ⟨i, hi⟩ := by
          simp [List.getD_eq_getElem?_getD, List.getElem?_eq_getElem hi]
        rw [h1]
        exact List.drop_eq_getElem_cons hi
      rw [hdi]
      rfl
    have hpre : ((recs.take i).flatMap encodeEntry).length = dataOffset recs i := by
      rw [flatMap_encode_length]; rfl
    rw [hbt, f1, a1]
    have hfile : (newWriter interval).file ++ recs.flatMap encodeEntry
          ++ encodeIdxSection (writerAppendAll (newWriter interval) recs).index
          ++ (u64be (writerAppendAll (newWriter interval) recs).offset
            ++ u64be (encodeIdxSection (writerAppendAll (newWriter interval) recs).index).length)
        = (recs.take i).flatMap encodeEntry
          ++ (encodeEntry (recs.getD i ⟨0, [], []⟩)
            ++ ((recs.drop (i + 1)).flatMap encodeEntry
              ++ (encodeIdxSection (writerAppendAll (newWriter interval) recs).index
                ++ (u64be (writerAppendAll (newWriter interval) recs).offset
                  ++ u64be (encodeIdxSection
                      (writerAppendAll (newWriter interval) recs).index).length)))) := by
      show ([] : Bytes) ++ recs.flatMap encodeEntry ++ _ ++ _ = _
      rw [List.nil_append, hsplit]
      simp [List.append_assoc]
    rw [hfile, ← hpre]
    rw [readEntryAt_encode _ _ _ hk hv ht]
    rw [hpre, dataOffset_succ recs i hi]

/-- Witness for claim C6 at a concrete input: interval 2, three records. -/
theorem c6_witness :
    (0 < 2 ∧ (∀ e ∈ ([⟨0, [97], [1]⟩, ⟨1, [98], []⟩, ⟨0, [99], [2, 3]⟩] : List Entry),
        e.etype < 256 ∧ e.key.length < 2 ^ 32 ∧ e.value.length < 2 ^ 32)) ∧
    ((writerAppendAll (newWriter 2) [⟨0, [97], [1]⟩, ⟨1, [98], []⟩, ⟨0, [99], [2, 3]⟩]).index
        = sparseIndex 2 [⟨0, [97], [1]⟩, ⟨1, [98], []⟩, ⟨0, [99], [2, 3]⟩] ∧
      (buildTable 2 [⟨0, [97], [1]⟩, ⟨1, [98], []⟩, ⟨0, [99], [2, 3]⟩]).file.length
        = (writerAppendAll (newWriter 2) [⟨0, [97], [1]⟩, ⟨1, [98], []⟩, ⟨0, [99], [2, 3]⟩]).offset
          + (buildTable 2 [⟨0, [97], [1]⟩, ⟨1, [98], []⟩, ⟨0, [99], [2, 3]⟩]).indexSize + 16 ∧
      (∀ i, i < ([⟨0, [97], [1]⟩, ⟨1, [98], []⟩, ⟨0, [99], [2, 3]⟩] : List Entry).length →
        readEntryAt (buildTable 2 [⟨0, [97], [1]⟩, ⟨1, [98], []⟩, ⟨0, [99], [2, 3]⟩]).file
            (dataOffset [⟨0, [97], [1]⟩, ⟨1, [98], []⟩, ⟨0, [99], [2, 3]⟩] i)
          = some (([⟨0, [97], [1]⟩, ⟨1, [98], []⟩, ⟨0, [99], [2, 3]⟩] : List Entry).getD i
              ⟨0, [], []⟩,
            dataOffset [⟨0, [97], [1]⟩, ⟨1, [98], []⟩, ⟨0, [99], [2, 3]⟩] (i + 1)))) :=
  ⟨⟨by decide, by decide⟩,
    c6_sparse_index_and_footer 2 [⟨0, [97], [1]⟩, ⟨1, [98], []⟩, ⟨0, [99], [2, 3]⟩]
      (by decide) (by decide)⟩

/-! ## Reader round-trip lemmas -/

/-- Decoding a buffer that starts with a whole encoded record. -/
theorem decodeEntry_encode (suf : Bytes) (e : Entry)
    (hk : e.key.length < 2 ^ 32) (hv : e.value.length < 2 ^ 32) (ht : e.etype < 256) :
    decodeEntry (encodeEntry e ++ suf) = some (e, encLen e) := by
  have hlen : (encodeEntry e ++ suf).length = encLen e + suf.length := by
    rw [List.length_append, encodeEntry_length]
  have hd1 : ((encodeEntry e ++ suf).drop 1).take 4 = u32be e.key.length := by
    simp [encodeEntry, u32be, List.take_append_eq_append_take]
  have hd5 : ((encodeEntry e ++ suf).drop 5).take 4 = u32be e.value.length := by
    simp [encodeEntry, u32be, List.take_append_eq_append_take]
  have hd9 : (encodeEntry e ++ suf).drop 9 = (e.key ++ e.value) ++ suf := by
    simp [encodeEntry, u32be]
  unfold decodeEntry
  rw [if_neg (by rw [hlen]; unfold encLen; omega)]
  rw [hd1, hd5, beVal_u32be _ hk, beVal_u32be _ hv]
  rw [if_neg (by rw [hlen]; unfold encLen; omega)]
  have hkey : ((encodeEntry e ++ suf).drop 9).take e.key.length = e.key := by
    rw [hd9, List.append_assoc, List.take_append_eq_append_take]
    simp
  have hval : ((encodeEntry e ++ suf).drop (9 + e.key.length)).take e.value.length
      = e.value := by
    rw [← List.drop_drop, hd9, List.append_assoc, List.drop_append_eq_append_drop]
    simp [List.take_append_eq_append_take]
  have hhead : (encodeEntry e ++ suf).headD 0 = e.etype := by
    simp [encodeEntry, Nat.mod_eq_of_lt ht]
  rw [hkey, hval, hhead]
  rfl

/-- One step of the index-section parse over a whole encoded pair. -/
theorem parseIndexSection_cons (kv : IdxEntry) (rest : Bytes)
    (hk : kv.key.length < 2 ^ 32) (ho : kv.offset < 2 ^ 64) :
    parseIndexSection (encodeIdxPair kv ++ rest)
      = (parseIndexSection rest).map (fun l => ⟨kv.key, kv.offset⟩ :: l) := by
  have hpair : encodeIdxPair kv ++ rest
      = encodeEntry ⟨idxCode, kv.key, []⟩ ++ (u64be kv.offset ++ rest) := by
    simp [encodeIdxPair, List.append_assoc]
  have hdec : decodeEntry (encodeIdxPair kv ++ rest)
      = some (⟨idxCode, kv.key, []⟩, encLen ⟨idxCode, kv.key, []⟩) := by
    rw [hpair]
    exact decodeEntry_encode _ _ hk (by simp) (by simp [idxCode])
  have hlen : (encodeIdxPair kv ++ rest).length
      = encLen ⟨idxCode, kv.key, []⟩ + 8 + rest.length := by
    simp [encodeIdxPair, List.length_append, encodeEntry_length, u64be_length]
    omega
  have hne : (encodeIdxPair kv ++ rest).length ≠ 0 := by
    rw [hlen]
    have := encLen_pos ⟨idxCode, kv.key, []⟩
    omega
  have hdropn : (encodeIdxPair kv ++ rest).drop (encLen ⟨idxCode, kv.key, []⟩)
      = u64be kv.offset ++ rest := by
    rw [hpair, List.drop_append_eq_append_drop]
    have h1 : (encodeEntry ⟨idxCode, kv.key, []⟩).drop (encLen ⟨idxCode, kv.key, []⟩)
        = [] := List.drop_eq_nil_of_le (by rw [encodeEntry_length])
    rw [h1]
    simp [encodeEntry_length]
  have hoff : beVal (((encodeIdxPair kv ++ rest).drop (encLen ⟨idxCode, kv.key, []⟩)).take 8)
      = kv.offset := by
    rw [hdropn, List.take_left' (u64be_length _), beVal_u64be _ ho]
  have hdroprest : (encodeIdxPair kv ++ rest).drop (encLen ⟨idxCode, kv.key, []⟩ + 8)
      = rest := by
    rw [← List.drop_drop, hdropn, List.drop_append_eq_append_drop]
    simp [u64be_length]
  have hguard : ¬ (encodeIdxPair kv ++ rest).length < encLen ⟨idxCode, kv.key, []⟩ + 8 := by
    rw [hlen]; omega
  rw [parseIndexSection]
  rw [dif_neg hne]
  simp only [hdec]
  rw [if_neg hguard, hdroprest, hoff]
  cases parseIndexSection rest <;> rfl

/-- The index section written for `idx` parses back to `idx`. -/
theorem parseIndexSection_roundtrip (idx : List IdxEntry)
    (hwf : ∀ kv ∈ idx, kv.key.length < 2 ^ 32 ∧ kv.offset < 2 ^ 64) :
    parseIndexSection (encodeIdxSection idx) = some idx := by
  induction idx with
  | nil => rw [parseIndexSection]; rfl
  | cons kv rest ih =>
    have h1 := hwf kv (by simp)
    have h2 : ∀ x ∈ rest, x.key.length < 2 ^ 32 ∧ x.offset < 2 ^ 64 := by
      intro x hx; exact hwf x (by simp [hx])
    show parseIndexSection (encodeIdxPair kv ++ encodeIdxSection rest) = _
    rw [parseIndexSection_cons kv _ h1.1 h1.2, ih h2]
    rfl

/-- An index section that ends in a leftover shorter than one record
prefix fails to parse (`index section not a whole number of entries`). -/
theorem parseIndexSection_junk (idx : List IdxEntry) (t : Bytes)
    (hwf : ∀ kv ∈ idx, kv.key.length < 2 ^ 32 ∧ kv.offset < 2 ^ 64)
    (ht0 : 0 < t.length) (ht9 : t.length < 9) :
    parseIndexSection (encodeIdxSection idx ++ t) = none := by
  induction idx with
  | nil =>
    show parseIndexSection ([] ++ t) = none
    rw [List.nil_append, parseIndexSection]
    rw [dif_neg (by omega)]
    have hdec : decodeEntry t = none := by
      unfold decodeEntry
      rw [if_pos ht9]
    rw [hdec]
  | cons kv rest ih =>
    have h1 := hwf kv (by simp)
    have h2 : ∀ x ∈ rest, x.key.length < 2 ^ 32 ∧ x.offset < 2 ^ 64 := by
      intro x hx; exact hwf x (by simp [hx])
    show parseIndexSection (encodeIdxPair kv ++ encodeIdxSection rest ++ t) = _
    rw [List.append_assoc, parseIndexSection_cons kv _ h1.1 h1.2, ih h2]
    rfl

/-- Opening a reader on an assembled table image: the footer is found, the
index section is read back whole and parsed, and `indexBase` is the data
length. -/
theorem loadIndex_mkTableFile (data isec : Bytes)
    (hd : data.length < 2 ^ 64) (hs : isec.length < 2 ^ 64) :
    loadIndex (mkTableFile data isec)
      = (parseIndexSection isec).map (fun idx => (idx, data.length)) := by
  have hlen : (mkTableFile data isec).length = data.length + isec.length + 16 := by
    simp [mkTableFile, List.length_append, u64be_length] <;> omega
  have hfoot : (mkTableFile data isec).drop ((mkTableFile data isec).length - 16)
      = u64be data.length ++ u64be isec.length := by
    rw [hlen]
    have h16 : data.length + isec.length + 16 - 16 = (data ++ isec).length := by
      simp [List.length_append]
    have hassoc : mkTableFile data isec
        = (data ++ isec) ++ (u64be data.length ++ u64be isec.length) := by
      simp [mkTableFile, List.append_assoc]
    rw [h16, hassoc, List.drop_left]
  have h8a : (u64be data.length ++ u64be isec.length).take 8 = u64be data.length :=
    List.take_left' (u64be_length _)
  have h8b : ((u64be data.length ++ u64be isec.length).drop 8).take 8
      = u64be isec.length := by
    rw [List.drop_left' (u64be_length _)]
    simp [u64be]
  have hread : readAt (mkTableFile data isec) data.length isec.length = some isec := by
    have hfileassoc : mkTableFile data isec
        = data ++ (isec ++ (u64be data.length ++ u64be isec.length)) := by
      simp [mkTableFile, List.append_assoc]
    rw [hfileassoc]
    have := readAt_section data isec (u64be data.length ++ u64be isec.length) 0
      isec.length (by omega)
    simpa using this
  unfold loadIndex
  rw [if_neg (by omega)]
  simp only [hfoot, h8a, h8b, beVal_u64be _ hd, beVal_u64be _ hs, hread]
  cases parseIndexSection isec <;> rfl

/-! ## Claim C9

`Reader.loadIndex` begins with `if stat.Size() < FooterSize { return nil }`:
a file shorter than the 16-byte footer does **not** fail at reader-open
time — the reader opens with an empty index (and then misses every key).
Only a malformed index section fails the open, and `parseTiers` skips files
whose `NewReader` errored and registers the rest. -/

/-- Counterexample to claim C9 as stated: an 11-byte file (the length of
the literal placeholder bytes the engine tests write) opens successfully
with an empty index, and `parseTiers` therefore registers it instead of
skipping it. -/
theorem c9_short_file_opens :
    loadIndex (List.replicate 11 0) = some ([], 0) ∧
    parseTierFiles [List.replicate 11 0] = [([], 0)] := by
  constructor <;> rfl

/-- Claim C9 as amended: (1) every file shorter than the 16-byte footer
opens successfully with an empty index, and (2) a reader with an empty
index answers every lookup with key-not-found; (3) a file whose index
section is a whole number of encoded `(Index record, offset)` pairs
followed by a non-empty leftover shorter than a record prefix fails at
reader-open time; (4) `parseTiers` skips a file whose open fails and
continues, and (5) registers a file whose open succeeds — so exactly the
files whose reader-open succeeded are registered. -/
theorem c9_corrupt_index_amended :
    (∀ file : Bytes, file.length < 16 → loadIndex file = some ([], 0)) ∧
    (∀ (file : Bytes) (key : Bytes), readerGet file [] 0 key = none) ∧
    (∀ (data : Bytes) (idx : List IdxEntry) (t : Bytes),
       (∀ kv ∈ idx, kv.key.length < 2 ^ 32 ∧ kv.offset < 2 ^ 64) →
       0 < t.length → t.length < 9 →
       data.length < 2 ^ 64 → (encodeIdxSection idx ++ t).length < 2 ^ 64 →
       loadIndex (mkTableFile data (encodeIdxSection idx ++ t)) = none) ∧
    (∀ (bad : Bytes) (files : List Bytes), loadIndex bad = none →
       parseTierFiles (bad :: files) = parseTierFiles files) ∧
    (∀ (good : Bytes) (files : List Bytes) (r : List IdxEntry × Nat),
       loadIndex good = some r →
       parseTierFiles (good :: files) = r :: parseTierFiles files) := by
  refine ⟨?_, ?_, ?_, ?_, ?_⟩
  · intro file h
    unfold loadIndex
    rw [if_pos h]
  · intro file key
    rfl
  · intro data idx t hwf ht0 ht9 hd hs
    rw [loadIndex_mkTableFile data _ hd hs, parseIndexSection_junk idx t hwf ht0 ht9]
    rfl
  · intro bad files h
    unfold parseTierFiles
    rw [List.filterMap_cons, h]
  · intro good files r h
    unfold parseTierFiles
    rw [List.filterMap_cons, h]

/-- Witness for claim C9's amended statement at concrete inputs: a 3-byte
file opens empty; a table whose index section is one valid pair followed by
a single junk byte fails to open; a failing file is skipped while a sound
one is registered. -/
theorem c9_witness :
    (([0, 1, 2] : Bytes).length < 16 ∧ loadIndex [0, 1, 2] = some ([], 0)) ∧
    readerGet [0, 1, 2] [] 0 [97] = none ∧
    ((∀ kv ∈ ([⟨[97], 0⟩] : List IdxEntry), kv.key.length < 2 ^ 32 ∧ kv.offset < 2 ^ 64) ∧
      loadIndex (mkTableFile [] (encodeIdxSection [⟨[97], 0⟩] ++ [7])) = none) ∧
    (loadIndex [0, 1, 2, 3] = some ([], 0) ∧
      parseTierFiles [[0, 1, 2, 3]] = [([], 0)]) :=
  ⟨⟨by decide, c9_corrupt_index_amended.1 [0, 1, 2] (by decide)⟩,
    c9_corrupt_index_amended.2.1 [0, 1, 2] [97],
    ⟨by decide,
      c9_corrupt_index_amended.2.2.1 [] [⟨[97], 0⟩] [7] (by decide) (by decide) (by decide)
        (by decide) (by decide)⟩,
    by constructor <;> rfl⟩

/-! ## Structure of the sparse index of a written table -/

/-- The sparse index is the selected ordinals mapped to key and begin
offset. -/
theorem sparseIndex_eq_map (interval : Nat) (recs : List Entry) :
    sparseIndex interval recs
      = (selOrds interval recs.length).map
          (fun i => (⟨recKey recs i, dataOffset recs i⟩ : IdxEntry)) := by
  unfold sparseIndex selOrds
  have hgen : ∀ l : List Nat,
      l.filterMap (fun i =>
        if i % interval = 0 then
          some (⟨((recs.drop i).headD ⟨0, [], []⟩).key,
            ((recs.take i).map encLen).sum⟩ : IdxEntry)
        else none)
      = (l.filter (fun i => i % interval = 0)).map
          (fun i => (⟨recKey recs i, dataOffset recs i⟩ : IdxEntry)) := by
    intro l
    induction l with
    | nil => rfl
    | cons x xs ih =>
      rw [List.filterMap_cons, List.filter_cons]
      by_cases hx : x % interval = 0
      · rw [if_pos hx, if_pos (by simp [hx])]
        show _ :: _ = _
        rw [List.map_cons, ih, headD_drop_getD]
        rfl
      · rw [if_neg hx, if_neg (by simp [hx])]
        exact ih
  exact hgen (List.range recs.length)

theorem selOrds_sorted (interval n : Nat) :
    (selOrds interval n).Pairwise (· < ·) :=
  (List.sorted_lt_range n).filter _

theorem selOrds_mem {interval n i : Nat} (h : i ∈ selOrds interval n) : i < n := by
  unfold selOrds at h
  exact List.mem_range.mp (List.mem_of_mem_filter h)

theorem selOrds_head (interval n : Nat) (hn : 0 < n) :
    ∃ t, selOrds interval n = 0 :: t := by
  unfold selOrds
  obtain ⟨m, rfl⟩ : ∃ m, n = m + 1 := ⟨n - 1, by omega⟩
  rw [List.range_succ_eq_map, List.filter_cons]
  rw [if_pos (by simp)]
  exact ⟨_, rfl⟩

theorem dataOffset_le_sum (recs : List Entry) (i : Nat) :
    dataOffset recs i ≤ (recs.map encLen).sum := by
  unfold dataOffset
  conv_rhs => rw [← List.take_append_drop i recs]
  rw [List.map_append, List.sum_append]
  omega

/-- The begin offsets are additive over a slice. -/
theorem dataOffset_add_slice (recs : List Entry) (a b : Nat) (hab : a ≤ b) :
    dataOffset recs b
      = dataOffset recs a + ((((recs.drop a).take (b - a)).map encLen).sum) := by
  unfold dataOffset
  have : b = a + (b - a) := by omega
  rw [this, List.take_add]
  rw [List.map_append, List.sum_append]
  have : a + (b - a) - a = b - a := by omega
  simp [this]

theorem dataOffset_full (recs : List Entry) :
    dataOffset recs recs.length = (recs.map encLen).sum := by
  unfold dataOffset
  rw [List.take_length]

/-- Opening a table the writer finished: the reader gets back exactly the
writer's sparse index, with `indexBase` at the end of the data section. -/
theorem loadIndex_buildTable (interval : Nat) (recs : List Entry)
    (hk : ∀ e ∈ recs, e.key.length < 2 ^ 32)
    (hdlen : (recs.map encLen).sum < 2 ^ 64)
    (hslen : (encodeIdxSection (sparseIndex interval recs)).length < 2 ^ 64) :
    loadIndex (buildTable interval recs).file
      = some (sparseIndex interval recs, (recs.map encLen).sum) := by
  obtain ⟨a1, a2, a3, a4, a5, a6, a7⟩ := writerAppendAll_spec recs (newWriter interval) rfl
  have hidx : (writerAppendAll (newWriter interval) recs).index
      = sparseIndex interval recs := by
    rw [a7]
    show sparseIndexFrom interval 0 0 recs = sparseIndex interval recs
    rw [sparseIndexFrom_eq]
    unfold sparseIndex
    simp
  have hinv : (writerAppendAll (newWriter interval) recs).offset
      = (writerAppendAll (newWriter interval) recs).file.length := by
    rw [a2, a1, List.length_append, flatMap_encode_length]
    rfl
  have hfin : (writerAppendAll (newWriter interval) recs).finished = false := by
    rw [a4]; rfl
  obtain ⟨f1, f2, f3, f4⟩ :=
    writerFinish_spec (writerAppendAll (newWriter interval) recs) hinv hfin
  have hfile : (buildTable interval recs).file
      = mkTableFile (recs.flatMap encodeEntry) (encodeIdxSection (sparseIndex interval recs)) := by
    show (writerFinish (writerAppendAll (newWriter interval) recs)).file = _
    rw [f1, a1, hidx]
    have hoffeq : (writerAppendAll (newWriter interval) recs).offset
        = (recs.flatMap encodeEntry).length := by
      rw [a2, flatMap_encode_length]
      show 0 + _ = _
      omega
    rw [hoffeq]
    simp [mkTableFile, newWriter, List.append_assoc]
  rw [hfile]
  have hdlen2 : (recs.flatMap encodeEntry).length < 2 ^ 64 := by
    rw [flatMap_encode_length]; exact hdlen
  rw [loadIndex_mkTableFile _ _ hdlen2 hslen]
  have hwfidx : ∀ kv ∈ sparseIndex interval recs,
      kv.key.length < 2 ^ 32 ∧ kv.offset < 2 ^ 64 := by
    intro kv hkv
    rw [sparseIndex_eq_map] at hkv
    obtain ⟨i, hi, rfl⟩ := List.mem_map.mp hkv
    have hin : i < recs.length := selOrds_mem hi
    constructor
    · show (recs.getD i ⟨0, [], []⟩).key.length < 2 ^ 32
      have : recs.getD i ⟨0, [], []⟩ ∈ recs := by
        rw [List.getD_eq_getElem _ _ hin]
        exact List.get_mem recs i hin
      exact hk _ this
    · exact Nat.lt_of_le_of_lt (dataOffset_le_sum recs i) hdlen
  rw [parseIndexSection_roundtrip _ hwfidx]
  rw [flatMap_encode_length]
  rfl

/-- Scanning a block that holds the encodings of `rs` (keys strictly
ascending): the outcome is decided by the unique record whose key equals
the target, and is the accumulator unchanged when there is none. -/
theorem scanLoop_slice (key : Bytes) :
    ∀ (rs : List Entry) (pre post : Bytes),
      (∀ e ∈ rs, e.etype < 256 ∧ e.key.length < 2 ^ 32 ∧ e.value.length < 2 ^ 32) →
      rs.Pairwise (fun a b => bytesCmp a.key b.key = .lt) →
      ∀ (lv : Option Entry) (fd : Bool),
    scanLoop (pre ++ (rs.flatMap encodeEntry ++ post)) key
        (pre.length + (rs.flatMap encodeEntry).length) pre.length lv fd
      = (match rs.find? (fun e => e.key == key) with
        | some e => (if e.etype = delCode then none else some e, e.etype == delCode)
        | none => (lv, fd)) := by
  intro rs
  induction rs with
  | nil =>
    intro pre post _ _ lv fd
    rw [scanLoop]
    rw [dif_neg (by simp)]
    rfl
  | cons r rs ih =>
    intro pre post hwf hsorted lv fd
    obtain ⟨ht, hk, hv⟩ := hwf r (by simp)
    have hfshape : pre ++ ((r :: rs).flatMap encodeEntry ++ post)
        = pre ++ (encodeEntry r ++ ((rs.flatMap encodeEntry) ++ post)) := by
      rw [List.flatMap_cons]
      simp [List.append_assoc]
    have hread : readEntryAt (pre ++ ((r :: rs).flatMap encodeEntry ++ post)) pre.length
        = some (r, pre.length + encLen r) := by
      rw [hfshape]
      exact readEntryAt_encode pre _ r hk hv ht
    have hblock : pre.length + ((r :: rs).flatMap encodeEntry).length
        = (pre.length + encLen r) + (rs.flatMap encodeEntry).length := by
      rw [List.flatMap_cons, List.length_append, encodeEntry_length]
      omega
    have hlt : pre.length < pre.length + ((r :: rs).flatMap encodeEntry).length := by
      rw [hblock]
      have := encLen_pos r
      omega
    have hstep : scanLoop (pre ++ ((r :: rs).flatMap encodeEntry ++ post)) key
        (pre.length + ((r :: rs).flatMap encodeEntry).length) pre.length lv fd
        = (let c := bytesCmp r.key key
           let lv2 := if c = .eq then (if r.etype = delCode then none else some r) else lv
           let fd2 := if c = .eq then (r.etype == delCode) else fd
           if c = .gt then (lv2, fd2)
           else scanLoop (pre ++ ((r :: rs).flatMap encodeEntry ++ post)) key
             (pre.length + ((r :: rs).flatMap encodeEntry).length) (pre.length + encLen r)
             lv2 fd2) := by
      rw [scanLoop, dif_pos hlt]
      simp only [hread]
      have hguard : pre.length < pre.length + encLen r := by
        have := encLen_pos r
        omega
      simp only [dif_pos hguard]
    rw [hstep]
    have hrecs : ∀ lv2 fd2, scanLoop (pre ++ ((r :: rs).flatMap encodeEntry ++ post)) key
        (pre.length + ((r :: rs).flatMap encodeEntry).length) (pre.length + encLen r)
        lv2 fd2
        = (match rs.find? (fun e => e.key == key) with
          | some e => (if e.etype = delCode then none else some e, e.etype == delCode)
          | none => (lv2, fd2)) := by
      intro lv2 fd2
      have h1 : pre ++ ((r :: rs).flatMap encodeEntry ++ post)
          = (pre ++ encodeEntry r) ++ ((rs.flatMap encodeEntry) ++ post) := by
        rw [hfshape]
        simp [List.append_assoc]
      have h2 : pre.length + encLen r = (pre ++ encodeEntry r).length := by
        rw [List.length_append, encodeEntry_length]
      have h3 : pre.length + ((r :: rs).flatMap encodeEntry).length
          = (pre ++ encodeEntry r).length + (rs.flatMap encodeEntry).length := by
        rw [← h2, hblock]
      rw [h1, h2, h3]
      exact ih (pre ++ encodeEntry r) post
        (fun e he => hwf e (by simp [he]))
        (List.Pairwise.of_cons hsorted) lv2 fd2
    cases hcc : bytesCmp r.key key with
    | eq =>
      have hkey : r.key = key := (bytesCmp_eq_iff _ _).mp hcc
      have hnone : rs.find? (fun e => e.key == key) = none := by
        rw [List.find?_eq_none]
        intro e he
        have hlt2 : bytesCmp r.key e.key = .lt := (List.pairwise_cons.mp hsorted).1 e he
        simp only [beq_iff_eq]
        intro heq
        rw [heq, ← hkey, bytesCmp_refl] at hlt2
        exact absurd hlt2 (by simp)
      simp only [hcc]
      rw [if_neg (by simp), hrecs, hnone]
      rw [show (r :: rs).find? (fun e => e.key == key) = some r from
        List.find?_cons_of_pos _ (by simp [hkey])]
      simp
    | lt =>
      have hne : ¬ (r.key == key) := by
        simp only [beq_iff_eq]
        intro heq
        rw [heq, bytesCmp_refl] at hcc
        exact absurd hcc (by simp)
      simp only [hcc]
      rw [if_neg (by simp), hrecs]
      rw [show (r :: rs).find? (fun e => e.key == key) = rs.find? (fun e => e.key == key) from
        List.find?_cons_of_neg _ hne]
      split <;> simp
    | gt =>
      have hne : ¬ (r.key == key) := by
        simp only [beq_iff_eq]
        intro heq
        rw [heq, bytesCmp_refl] at hcc
        exact absurd hcc (by simp)
      have hnone : rs.find? (fun e => e.key == key) = none := by
        rw [List.find?_eq_none]
        intro e he
        have hlt2 : bytesCmp r.key e.key = .lt := (List.pairwise_cons.mp hsorted).1 e he
        have hkr : bytesCmp key r.key = .lt := (bytesCmp_lt_gt key r.key).mpr hcc
        have : bytesCmp key e.key = .lt := bytesCmp_lt_trans key r.key e.key hkr hlt2
        simp only [beq_iff_eq]
        intro heq
        rw [← heq, bytesCmp_refl] at this
        exact absurd this (by simp)
      rw [show (r :: rs).find? (fun e => e.key == key) = rs.find? (fun e => e.key == key) from
        List.find?_cons_of_neg _ hne, hnone]
      simp only [hcc]
      simp

theorem recKey_lt (recs : List Entry)
    (hsorted : recs.Pairwise (fun a b => bytesCmp a.key b.key = .lt))
    {i j : Nat} (hj : j < recs.length) (hij : i < j) :
    bytesCmp (recKey recs i) (recKey recs j) = .lt := by
  have hi : i < recs.length := by omega
  unfold recKey
  rw [List.getD_eq_getElem _ _ hi, List.getD_eq_getElem _ _ hj]
  exact List.pairwise_iff_getElem.mp hsorted i j hi hj hij

/-- On a strictly ascending index, entries before the binary-search result
compare not-greater than the target and entries from it on compare
greater. -/
theorem searchGt_bounds (idx : List IdxEntry) (key : Bytes)
    (hsorted : idx.Pairwise (fun a b => bytesCmp a.key b.key = .lt)) :
    (∀ i (hi : i < idx.length), i < searchGt idx key →
        ¬ bytesCmp (idx.get ⟨i, hi⟩).key key = .gt) ∧
    (∀ j (hj : j < idx.length), searchGt idx key ≤ j →
        bytesCmp (idx.get ⟨j, hj⟩).key key = .gt) := by
  constructor
  · intro i hi hlt
    have hlt2 : i < idx.findIdx (fun e => bytesCmp e.key key = .gt) := hlt
    have h5 := List.not_of_lt_findIdx hlt2
    simp only [decide_eq_false_iff_not] at h5
    exact h5
  · intro j hj hle
    have hub : searchGt idx key < idx.length := by omega
    have hat : bytesCmp (idx.get ⟨searchGt idx key, hub⟩).key key = .gt := by
      have hub2 : idx.findIdx (fun e => bytesCmp e.key key = .gt) < idx.length := hub
      have h4 : bytesCmp
          ((idx.get ⟨idx.findIdx (fun e => bytesCmp e.key key = .gt), hub2⟩).key)
          key = .gt := by
        have h3 := List.findIdx_getElem (w := hub2)
        simpa using h3
      exact h4
    rcases Nat.eq_or_lt_of_le hle with rfl | hlt
    · exact hat
    · have hkk : bytesCmp (idx.get ⟨searchGt idx key, hub⟩).key (idx.get ⟨j, hj⟩).key
          = .lt := List.pairwise_iff_getElem.mp hsorted _ _ hub hj hlt
      have h1 : bytesCmp key (idx.get ⟨searchGt idx key, hub⟩).key = .lt :=
        (bytesCmp_lt_gt _ _).mpr hat
      have h2 : bytesCmp key (idx.get ⟨j, hj⟩).key = .lt :=
        bytesCmp_lt_trans _ _ _ h1 hkk
      exact (bytesCmp_lt_gt _ _).mp h2

/-- The immediate-NotFound test of `Reader.Get` (`pos < 0`) coincides with
"no index position has key less than or equal to the target", and
otherwise the position scanned is exactly the largest such position. -/
theorem search_largestLE (idx : List IdxEntry) (key : Bytes)
    (hsorted : idx.Pairwise (fun a b => bytesCmp a.key b.key = .lt)) :
    (searchGt idx key = 0 ↔ largestLE idx key = none) ∧
    (0 < searchGt idx key → largestLE idx key = some (searchGt idx key - 1)) := by
  obtain ⟨hlo, hhi⟩ := searchGt_bounds idx key hsorted
  have hmem : ∀ i : Nat, i ∈ (List.range idx.length).filter
      (fun i => ¬ bytesCmp (idx.getD i default).key key = .gt)
      ↔ (i < idx.length ∧ ¬ bytesCmp (idx.getD i default).key key = .gt) := by
    intro i
    rw [List.mem_filter, List.mem_range]
    simp
  constructor
  · constructor
    · intro h0
      unfold largestLE
      have hnil : (List.range idx.length).filter
          (fun i => ¬ bytesCmp (idx.getD i default).key key = .gt) = [] := by
        rw [List.filter_eq_nil_iff]
        intro i hi
        have hi2 := List.mem_range.mp hi
        have := hhi i hi2 (by omega)
        rw [List.getD_eq_getElem _ _ hi2]
        simpa using this
      rw [hnil]
      rfl
    · intro hnone
      by_contra hne
      have hub : 0 < searchGt idx key := Nat.pos_of_ne_zero hne
      have hlen : 0 < idx.length := by
        have hle0 : searchGt idx key ≤ idx.length := List.findIdx_le_length _
        omega
      have h0 : (0 : Nat) ∈ (List.range idx.length).filter
          (fun i => ¬ bytesCmp (idx.getD i default).key key = .gt) := by
        rw [hmem]
        refine ⟨hlen, ?_⟩
        rw [List.getD_eq_getElem _ _ hlen]
        exact hlo 0 hlen hub
      unfold largestLE at hnone
      rcases hx : (List.range idx.length).filter
          (fun i => ¬ bytesCmp (idx.getD i default).key key = .gt) with _ | ⟨a, l⟩
      · rw [hx] at h0; exact absurd h0 (by simp)
      · rw [hx] at hnone
        exact absurd hnone (by simp [List.max?_cons])
  · intro hub
    have hle : searchGt idx key ≤ idx.length := List.findIdx_le_length _
    have hlen : 0 < idx.length := by omega
    unfold largestLE
    rw [List.max?_eq_some_iff']
    constructor
    · rw [hmem]
      have hp : searchGt idx key - 1 < idx.length := by omega
      refine ⟨hp, ?_⟩
      rw [List.getD_eq_getElem _ _ hp]
      exact hlo _ hp (by omega)
    · intro b hb
      rw [hmem] at hb
      obtain ⟨hb1, hb2⟩ := hb
      by_contra hgt
      have : searchGt idx key ≤ b := by omega
      have := hhi b hb1 this
      rw [List.getD_eq_getElem _ _ hb1] at hb2
      exact hb2 this

/-- On a key-sorted record list the writer's sparse index is key-sorted. -/
theorem sparseIndex_sorted (interval : Nat) (recs : List Entry)
    (hsorted : recs.Pairwise (fun a b => bytesCmp a.key b.key = .lt)) :
    (sparseIndex interval recs).Pairwise
      (fun a b => bytesCmp a.key b.key = .lt) := by
  rw [sparseIndex_eq_map, List.pairwise_map]
  refine List.Pairwise.imp_of_mem ?_ (selOrds_sorted interval recs.length)
  intro a b ha hb hab
  exact recKey_lt recs hsorted (selOrds_mem hb) hab

/-- The finished table file laid out by `Writer.Finish`: data section, index
section, 16-byte footer. -/
theorem buildTable_file (interval : Nat) (recs : List Entry) :
    (buildTable interval recs).file
      = mkTableFile (recs.flatMap encodeEntry)
          (encodeIdxSection (sparseIndex interval recs)) := by
  obtain ⟨a1, a2, a3, a4, a5, a6, a7⟩ := writerAppendAll_spec recs (newWriter interval) rfl
  have hidx : (writerAppendAll (newWriter interval) recs).index
      = sparseIndex interval recs := by
    rw [a7]
    show sparseIndexFrom interval 0 0 recs = sparseIndex interval recs
    rw [sparseIndexFrom_eq]
    unfold sparseIndex
    simp
  have hinv : (writerAppendAll (newWriter interval) recs).offset
      = (writerAppendAll (newWriter interval) recs).file.length := by
    rw [a2, a1, List.length_append, flatMap_encode_length]
    rfl
  have hfin : (writerAppendAll (newWriter interval) recs).finished = false := by
    rw [a4]; rfl
  obtain ⟨f1, f2, f3, f4⟩ :=
    writerFinish_spec (writerAppendAll (newWriter interval) recs) hinv hfin
  show (writerFinish (writerAppendAll (newWriter interval) recs)).file = _
  rw [f1, a1, hidx]
  have hoffeq : (writerAppendAll (newWriter interval) recs).offset
      = (recs.flatMap encodeEntry).length := by
    rw [a2, flatMap_encode_length]
    show 0 + _ = _
    omega
  rw [hoffeq]
  simp [mkTableFile, newWriter, List.append_assoc]

/-- `buildTable_file` with the appends re-associated so that the file is
the data section followed by a single trailing suffix. -/
theorem buildTable_file_shape (interval : Nat) (recs : List Entry) :
    (buildTable interval recs).file
      = recs.flatMap encodeEntry
        ++ (encodeIdxSection (sparseIndex interval recs)
            ++ (u64be (recs.flatMap encodeEntry).length
                ++ u64be (encodeIdxSection (sparseIndex interval recs)).length)) := by
  rw [buildTable_file]
  simp [mkTableFile, List.append_assoc]

/-- `Reader.Get` over a table whose data section holds the key-sorted
records `recs`, with a sparse index built from any strictly ascending
ordinal list that starts at ordinal 0 (as the writer's does): the outcome
is decided by the unique record whose key equals the target — its record
for a `Set`, key-not-found for a tombstone or an absent key.  The binary
search lands on a block guaranteed to contain the target key if any record
does, and the block scan settles it. -/
theorem readerGet_ordinals (recs : List Entry) (post k : Bytes) (s : List Nat)
    (idx : List IdxEntry)
    (hidx : idx = s.map (fun i => (⟨recKey recs i, dataOffset recs i⟩ : IdxEntry)))
    (hwf : ∀ e ∈ recs, e.etype < 256 ∧ e.key.length < 2 ^ 32 ∧ e.value.length < 2 ^ 32)
    (hsorted : recs.Pairwise (fun a b => bytesCmp a.key b.key = .lt))
    (hssorted : s.Pairwise (· < ·))
    (hsmem : ∀ i ∈ s, i < recs.length)
    (hhead : 0 < recs.length → ∃ tl, s = 0 :: tl) :
    readerGet (recs.flatMap encodeEntry ++ post) idx ((recs.map encLen).sum) k
      = (match recs.find? (fun e => e.key == k) with
        | some e => if e.etype = delCode then none else some e
        | none => none) := by
  by_cases hn0 : recs.length = 0
  · have hrnil : recs = [] := List.eq_nil_of_length_eq_zero hn0
    have hsnil : s = [] := by
      cases hsc : s with
      | nil => rfl
      | cons a t =>
        have := hsmem a (by rw [hsc]; simp)
        omega
    subst hrnil
    subst hsnil
    subst hidx
    rfl
  · have hn : 0 < recs.length := Nat.pos_of_ne_zero hn0
    obtain ⟨tl, hstl⟩ := hhead hn
    have hslen : 0 < s.length := by rw [hstl]; simp
    have hs00 : s.getD 0 0 = 0 := by rw [hstl]; rfl
    have hidxlen : idx.length = s.length := by rw [hidx, List.length_map]
    have hidxsorted : idx.Pairwise (fun a b => bytesCmp a.key b.key = .lt) := by
      rw [hidx, List.pairwise_map]
      refine List.Pairwise.imp_of_mem ?_ hssorted
      intro a b ha hb hab
      exact recKey_lt recs hsorted (hsmem b hb) hab
    obtain ⟨hlo, hhi⟩ := searchGt_bounds idx k hidxsorted
    have hgetD : ∀ p, p < s.length →
        idx.getD p default
          = ⟨recKey recs (s.getD p 0), dataOffset recs (s.getD p 0)⟩ := by
      intro p hp
      have hp2 : p < idx.length := by omega
      rw [List.getD_eq_getElem _ _ hp2, List.getD_eq_getElem _ _ hp]
      subst hidx
      simp
    have hgetDoff : ∀ p, p < s.length →
        (idx.getD p default).offset = dataOffset recs (s.getD p 0) := by
      intro p hp
      rw [hgetD p hp]
    have hlo2 : ∀ p, p < s.length → p < searchGt idx k →
        ¬ bytesCmp (idx.getD p default).key k = .gt := by
      intro p hp hplt
      have hp2 : p < idx.length := by omega
      rw [List.getD_eq_getElem _ _ hp2]
      have h := hlo p hp2 hplt
      simpa using h
    have hhi2 : ∀ p, p < s.length → searchGt idx k ≤ p →
        bytesCmp (idx.getD p default).key k = .gt := by
      intro p hp hple
      have hp2 : p < idx.length := by omega
      rw [List.getD_eq_getElem _ _ hp2]
      have h := hhi p hp2 hple
      simpa using h
    have hs_lt : ∀ a b, a < b → b < s.length → s.getD a 0 < s.getD b 0 := by
      intro a b hab hb
      have ha : a < s.length := by omega
      rw [List.getD_eq_getElem _ _ ha, List.getD_eq_getElem _ _ hb]
      exact List.pairwise_iff_getElem.mp hssorted a b ha hb hab
    have hs_mem : ∀ p, p < s.length → s.getD p 0 < recs.length := by
      intro p hp
      refine hsmem _ ?_
      rw [List.getD_eq_getElem _ _ hp]
      exact List.get_mem s p hp
    simp only [readerGet]
    by_cases hub0 : searchGt idx k = 0
    · rw [if_pos hub0]
      have hgt0 : bytesCmp (recKey recs 0) k = .gt := by
        have h := hhi2 0 hslen (by omega)
        rw [hgetD 0 hslen, hs00] at h
        exact h
      have hfnone : recs.find? (fun e => e.key == k) = none := by
        rw [List.find?_eq_none]
        intro e he
        obtain ⟨i, hi, hei⟩ := List.mem_iff_getElem.mp he
        have hkey : e.key = recKey recs i := by
          rw [← hei, recKey, List.getD_eq_getElem _ _ hi]
        have hik : bytesCmp k e.key = Ordering.lt := by
          have hk0 : bytesCmp k (recKey recs 0) = Ordering.lt :=
            (bytesCmp_lt_gt _ _).mpr hgt0
          rw [hkey]
          rcases Nat.eq_zero_or_pos i with hz | hipos
          · rw [hz]
            exact hk0
          · exact bytesCmp_lt_trans _ _ _ hk0 (recKey_lt recs hsorted hi hipos)
        simp only [beq_iff_eq]
        intro heq
        rw [heq, bytesCmp_refl] at hik
        simp at hik
      rw [hfnone]
    · have hub : 0 < searchGt idx k := Nat.pos_of_ne_zero hub0
      have hle : searchGt idx k ≤ idx.length := List.findIdx_le_length _
      have hposS : searchGt idx k - 1 < s.length := by omega
      obtain ⟨ip, hipdef⟩ : ∃ v, s.getD (searchGt idx k - 1) 0 = v := ⟨_, rfl⟩
      have hipn : ip < recs.length := by
        rw [← hipdef]
        exact hs_mem _ hposS
      have hA : ¬ bytesCmp (recKey recs ip) k = .gt := by
        have h := hlo2 _ hposS (by omega)
        rw [hgetD _ hposS, hipdef] at h
        exact h
      obtain ⟨ie, hie1, hie2, hieBE, hiegt⟩ :
          ∃ ie, ip < ie ∧ ie ≤ recs.length ∧
            ((if searchGt idx k - 1 + 1 < idx.length
                then (idx.getD (searchGt idx k - 1 + 1) default).offset
                else (recs.map encLen).sum) = dataOffset recs ie) ∧
            (∀ i, ie ≤ i → i < recs.length → bytesCmp k (recKey recs i) = .lt) := by
        have hpp : searchGt idx k - 1 + 1 = searchGt idx k := by omega
        by_cases hnext : searchGt idx k - 1 + 1 < idx.length
        · have hnextS : searchGt idx k < s.length := by omega
          refine ⟨s.getD (searchGt idx k) 0, ?_, ?_, ?_, ?_⟩
          · rw [← hipdef]
            exact hs_lt _ _ (by omega) hnextS
          · exact Nat.le_of_lt (hs_mem _ hnextS)
          · rw [if_pos hnext, hpp]
            exact hgetDoff _ hnextS
          · intro i hi hin
            have hgtn : bytesCmp (recKey recs (s.getD (searchGt idx k) 0)) k = .gt := by
              have h := hhi2 _ hnextS (by omega)
              rw [hgetD _ hnextS] at h
              exact h
            have hkn : bytesCmp k (recKey recs (s.getD (searchGt idx k) 0)) = .lt :=
              (bytesCmp_lt_gt _ _).mpr hgtn
            rcases Nat.eq_or_lt_of_le hi with rfl | hlt2
            · exact hkn
            · exact bytesCmp_lt_trans _ _ _ hkn (recKey_lt recs hsorted hin hlt2)
        · refine ⟨recs.length, by omega, Nat.le_refl _, ?_, ?_⟩
          · rw [if_neg hnext, dataOffset_full]
          · intro i h1 h2
            exact absurd (Nat.lt_of_lt_of_le h2 h1) (Nat.lt_irrefl i)
      have hsub : List.Sublist ((recs.drop ip).take (ie - ip)) recs :=
        (List.take_sublist _ _).trans (List.drop_sublist _ _)
      have hsplit : recs.take ip ++ ((recs.drop ip).take (ie - ip) ++ recs.drop ie)
          = recs := by
        have h2 : (recs.drop ip).drop (ie - ip) = recs.drop ie := by
          rw [List.drop_drop]
          congr 1
          omega
        rw [← h2, List.take_append_drop, List.take_append_drop]
      have hiple : bytesCmp (recKey recs ip) k = Ordering.lt ∨ recKey recs ip = k := by
        cases h : bytesCmp (recKey recs ip) k with
        | lt => exact Or.inl rfl
        | eq => exact Or.inr ((bytesCmp_eq_iff _ _).mp h)
        | gt => exact absurd h hA
      have hlt_lt_ip : ∀ j, j < ip → bytesCmp (recKey recs j) k = Ordering.lt := by
        intro j hj
        have hjlt : bytesCmp (recKey recs j) (recKey recs ip) = Ordering.lt :=
          recKey_lt recs hsorted hipn hj
        rcases hiple with h | h
        · exact bytesCmp_lt_trans _ _ _ hjlt h
        · rw [← h]
          exact hjlt
      have hAnone : (recs.take ip).find? (fun e => e.key == k) = none := by
        rw [List.find?_eq_none]
        intro e he
        obtain ⟨j, hj, hej⟩ := List.mem_iff_getElem.mp he
        have hjip : j < ip := by
          have hl := hj
          rw [List.length_take] at hl
          omega
        have hjn : j < recs.length := by omega
        have hkeyj : e.key = recKey recs j := by
          rw [← hej, recKey, List.getD_eq_getElem _ _ hjn]
          simp
        have hlt := hlt_lt_ip j hjip
        simp only [beq_iff_eq]
        intro heq
        rw [hkeyj] at heq
        rw [heq, bytesCmp_refl] at hlt
        simp at hlt
      have hBnone : (recs.drop ie).find? (fun e => e.key == k) = none := by
        rw [List.find?_eq_none]
        intro e he
        obtain ⟨j, hj, hej⟩ := List.mem_iff_getElem.mp he
        have hjn : ie + j < recs.length := by
          have hl := hj
          rw [List.length_drop] at hl
          omega
        have hkeyj : e.key = recKey recs (ie + j) := by
          rw [← hej, recKey, List.getD_eq_getElem _ _ hjn]
          simp
        have hlt := hiegt (ie + j) (by omega) hjn
        simp only [beq_iff_eq]
        intro heq
        rw [hkeyj] at heq
        rw [heq, bytesCmp_refl] at hlt
        simp at hlt
      have hfind : recs.find? (fun e => e.key == k)
          = ((recs.drop ip).take (ie - ip)).find? (fun e => e.key == k) := by
        conv_lhs => rw [← hsplit]
        rw [List.find?_append, List.find?_append, hAnone, hBnone]
        simp
      have hfile : recs.flatMap encodeEntry ++ post
          = (recs.take ip).flatMap encodeEntry
            ++ (((recs.drop ip).take (ie - ip)).flatMap encodeEntry
                ++ ((recs.drop ie).flatMap encodeEntry ++ post)) := by
        conv_lhs => rw [← hsplit]
        rw [List.flatMap_append, List.flatMap_append]
        simp [List.append_assoc]
      have hdo : ∀ m : Nat, dataOffset recs m = ((recs.take m).map encLen).sum :=
        fun m => rfl
      have hstart : (idx.getD (searchGt idx k - 1) default).offset
          = ((recs.take ip).flatMap encodeEntry).length := by
        rw [hgetDoff _ hposS, hipdef, flatMap_encode_length, hdo]
      have hBE : (if searchGt idx k - 1 + 1 < idx.length
            then (idx.getD (searchGt idx k - 1 + 1) default).offset
            else (recs.map encLen).sum)
          = ((recs.take ip).flatMap encodeEntry).length
            + (((recs.drop ip).take (ie - ip)).flatMap encodeEntry).length := by
        rw [hieBE, flatMap_encode_length, flatMap_encode_length, ← hdo]
        exact dataOffset_add_slice recs ip ie (Nat.le_of_lt hie1)
      have hwfslice : ∀ e ∈ (recs.drop ip).take (ie - ip),
          e.etype < 256 ∧ e.key.length < 2 ^ 32 ∧ e.value.length < 2 ^ 32 :=
        fun e he => hwf e (hsub.subset he)
      have hsortslice : ((recs.drop ip).take (ie - ip)).Pairwise
          (fun a b => bytesCmp a.key b.key = .lt) :=
        List.Pairwise.sublist hsub hsorted
      have hscan := scanLoop_slice k ((recs.drop ip).take (ie - ip))
          ((recs.take ip).flatMap encodeEntry)
          ((recs.drop ie).flatMap encodeEntry ++ post)
          hwfslice hsortslice none false
      rw [if_neg hub0, hstart, hBE, hfile, hscan, hfind]
      cases hfe : ((recs.drop ip).take (ie - ip)).find? (fun e => e.key == k) with
      | none => simp [hfe]
      | some e =>
        by_cases hdel : e.etype = delCode
        · simp [hfe, hdel]
        · simp [hfe, hdel]

/-- `Reader.Get` on a table written from key-sorted records (with arbitrary
trailing bytes after the data section): lookup is equivalent to finding the
unique record with the target key among the written records. -/
theorem readerGet_data (interval : Nat) (recs : List Entry) (post k : Bytes)
    (hwf : ∀ e ∈ recs, e.etype < 256 ∧ e.key.length < 2 ^ 32 ∧ e.value.length < 2 ^ 32)
    (hsorted : recs.Pairwise (fun a b => bytesCmp a.key b.key = .lt)) :
    readerGet (recs.flatMap encodeEntry ++ post) (sparseIndex interval recs)
        ((recs.map encLen).sum) k
      = (match recs.find? (fun e => e.key == k) with
        | some e => if e.etype = delCode then none else some e
        | none => none) :=
  readerGet_ordinals recs post k (selOrds interval recs.length)
    (sparseIndex interval recs) (sparseIndex_eq_map interval recs) hwf hsorted
    (selOrds_sorted interval recs.length) (fun i hi => selOrds_mem hi)
    (fun hn => selOrds_head interval recs.length hn)

/-! ## Merger lemmas -/

theorem outRec_key (p : PRec) : (outRec p).key = p.key := by
  unfold outRec
  cases p.deleted <;> simp

theorem itemLess_asymm {a b : PRec} (h : itemLess a b = true) :
    itemLess b a = false := by
  unfold itemLess at h ⊢
  cases hc : bytesCmp a.key b.key with
  | lt =>
    rw [(bytesCmp_lt_gt _ _).mp hc]
  | eq =>
    rw [hc] at h
    rw [(bytesCmp_eq_iff _ _).mpr ((bytesCmp_eq_iff _ _).mp hc).symm]
    simp at h ⊢
    omega
  | gt =>
    rw [hc] at h
    simp at h

theorem itemLess_trans {a b c : PRec} (hab : itemLess a b = true)
    (hbc : itemLess b c = true) : itemLess a c = true := by
  unfold itemLess at hab hbc ⊢
  cases h1 : bytesCmp a.key b.key with
  | lt =>
    cases h2 : bytesCmp b.key c.key with
    | lt =>
      rw [bytesCmp_lt_trans _ _ _ h1 h2]
    | eq =>
      have he : b.key = c.key := (bytesCmp_eq_iff _ _).mp h2
      rw [← he, h1]
    | gt =>
      rw [h2] at hbc
      simp at hbc
  | eq =>
    have he : a.key = b.key := (bytesCmp_eq_iff _ _).mp h1
    rw [h1] at hab
    simp at hab
    cases h2 : bytesCmp b.key c.key with
    | lt =>
      rw [he, h2]
    | eq =>
      rw [h2] at hbc
      simp at hbc
      rw [he, h2]
      simp
      omega
    | gt =>
      rw [h2] at hbc
      simp at hbc
  | gt =>
    rw [h1] at hab
    simp at hab

theorem itemLess_total {a b : PRec} (h : a.prio ≠ b.prio) :
    itemLess a b = true ∨ itemLess b a = true := by
  unfold itemLess
  cases hc : bytesCmp a.key b.key with
  | lt => exact Or.inl rfl
  | gt =>
    rw [(bytesCmp_lt_gt _ _).mpr hc]
    exact Or.inr rfl
  | eq =>
    rw [(bytesCmp_eq_iff _ _).mpr ((bytesCmp_eq_iff _ _).mp hc).symm]
    simp
    omega

/-- The key comparison hidden in `itemLess`: a smaller item has a smaller
or equal key. -/
theorem itemLess_key_le {p q : PRec} (h : itemLess p q = true) :
    bytesCmp p.key q.key = .lt ∨ p.key = q.key := by
  unfold itemLess at h
  cases hc : bytesCmp p.key q.key with
  | lt => exact Or.inl rfl
  | eq => exact Or.inr ((bytesCmp_eq_iff _ _).mp hc)
  | gt =>
    rw [hc] at h
    simp at h

/-- On equal keys `itemLess` orders by strictly higher priority. -/
theorem itemLess_eq_key_prio {p q : PRec} (h : itemLess p q = true)
    (hk : p.key = q.key) : q.prio < p.prio := by
  unfold itemLess at h
  rw [(bytesCmp_eq_iff _ _).mpr hk] at h
  simpa using h

theorem popMin_cons_eq (x : MItem) (xs : List MItem) :
    popMin (x :: xs)
      = match popMin xs with
        | none => some (x, [])
        | some (m, rest) =>
          if itemLess m.pr x.pr then some (m, x :: rest)
          else some (x, m :: rest) := rfl

theorem popMin_none {items : List MItem} : popMin items = none ↔ items = [] := by
  cases items with
  | nil => simp [popMin]
  | cons x xs =>
    rw [popMin_cons_eq]
    cases hp : popMin xs with
    | none => simp
    | some mr =>
      obtain ⟨m, rest⟩ := mr
      by_cases h : itemLess m.pr x.pr = true <;> simp [h]

theorem popMin_cons_none (x : MItem) (xs : List MItem) (hp : popMin xs = none) :
    popMin (x :: xs) = some (x, []) := by
  rw [popMin_cons_eq, hp]

theorem popMin_cons_lt (x m : MItem) (xs rest : List MItem)
    (hp : popMin xs = some (m, rest)) (hl : itemLess m.pr x.pr = true) :
    popMin (x :: xs) = some (m, x :: rest) := by
  rw [popMin_cons_eq, hp]
  simp [hl]

theorem popMin_cons_ge (x m : MItem) (xs rest : List MItem)
    (hp : popMin xs = some (m, rest)) (hl : ¬ itemLess m.pr x.pr = true) :
    popMin (x :: xs) = some (x, m :: rest) := by
  rw [popMin_cons_eq, hp]
  simp [hl]

/-- What `heap.Pop` removes plus what remains is the original heap. -/
theorem popMin_perm : ∀ {items : List MItem} {m : MItem} {rest : List MItem},
    popMin items = some (m, rest) → List.Perm (m :: rest) items := by
  intro items
  induction items with
  | nil =>
    intro m rest h
    simp [popMin] at h
  | cons x xs ih =>
    intro m rest h
    cases hp : popMin xs with
    | none =>
      rw [popMin_cons_none x xs hp] at h
      simp at h
      obtain ⟨h1, h2⟩ := h
      subst h1
      subst h2
      rw [popMin_none.mp hp]
    | some mr =>
      obtain ⟨m2, r2⟩ := mr
      by_cases hl : itemLess m2.pr x.pr = true
      · rw [popMin_cons_lt x m2 xs r2 hp hl] at h
        simp at h
        obtain ⟨h1, h2⟩ := h
        subst h1
        subst h2
        exact (List.Perm.swap x m2 r2).trans ((ih hp).cons x)
      · rw [popMin_cons_ge x m2 xs r2 hp hl] at h
        simp at h
        obtain ⟨h1, h2⟩ := h
        subst h1
        subst h2
        exact (ih hp).cons x

/-- `heap.Pop` removes a `Less`-minimal element; with pairwise distinct
priorities it is strictly below everything left on the heap. -/
theorem popMin_min : ∀ {items : List MItem} {m : MItem} {rest : List MItem},
    (items.map (fun it => it.pr.prio)).Pairwise (fun a b => a ≠ b) →
    popMin items = some (m, rest) →
    ∀ y ∈ rest, itemLess m.pr y.pr = true := by
  intro items
  induction items with
  | nil =>
    intro m rest _ h
    simp [popMin] at h
  | cons x xs ih =>
    intro m rest hdist h
    simp only [List.map_cons] at hdist
    have hdtail := List.Pairwise.of_cons hdist
    have hdhead := (List.pairwise_cons.mp hdist).1
    cases hp : popMin xs with
    | none =>
      rw [popMin_cons_none x xs hp] at h
      simp at h
      obtain ⟨h1, h2⟩ := h
      subst h1
      subst h2
      intro y hy
      simp at hy
    | some mr =>
      obtain ⟨m2, r2⟩ := mr
      by_cases hl : itemLess m2.pr x.pr = true
      · rw [popMin_cons_lt x m2 xs r2 hp hl] at h
        simp at h
        obtain ⟨h1, h2⟩ := h
        subst h1
        subst h2
        intro y hy
        rcases List.mem_cons.mp hy with rfl | hy2
        · exact hl
        · exact ih hdtail hp y hy2
      · rw [popMin_cons_ge x m2 xs r2 hp hl] at h
        simp at h
        obtain ⟨h1, h2⟩ := h
        subst h1
        subst h2
        have hm2xs : m2 ∈ xs := (popMin_perm hp).mem_iff.mp (List.mem_cons_self _ _)
        have hne : x.pr.prio ≠ m2.pr.prio :=
          hdhead m2.pr.prio (List.mem_map_of_mem _ hm2xs)
        have hxm2 : itemLess x.pr m2.pr = true := by
          rcases itemLess_total hne with h3 | h3
          · exact h3
          · exact absurd h3 hl
        intro y hy
        rcases List.mem_cons.mp hy with rfl | hy2
        · exact hxm2
        · exact itemLess_trans hxm2 (ih hdtail hp y hy2)

theorem itemPRecs_mkItem (p : Nat) (e : Entry) (r : List Entry) :
    itemPRecs (mkItem p e r) = (e :: r).map (fun x => (mkItem p x []).pr) := rfl

theorem heapPRecs_append (a b : List MItem) :
    heapPRecs (a ++ b) = heapPRecs a ++ heapPRecs b := by
  unfold heapPRecs
  rw [List.flatMap_append]

/-- An item's record instances are its current record followed by what its
advanced successor holds. -/
theorem itemPRecs_advance (m : MItem) :
    itemPRecs m = m.pr :: heapPRecs (advanceItem m) := by
  unfold itemPRecs heapPRecs advanceItem
  cases hr : m.rest with
  | nil => simp
  | cons e r => simp [itemPRecs_mkItem]

/-- One loop iteration conserves the heap's record instances: the popped
record plus the new heap's instances permute the old heap's instances. -/
theorem heapPRecs_pop {items : List MItem} {m : MItem} {rest : List MItem}
    (h : popMin items = some (m, rest)) :
    List.Perm (m.pr :: heapPRecs (rest ++ advanceItem m)) (heapPRecs items) := by
  have h1 : List.Perm (heapPRecs (m :: rest)) (heapPRecs items) :=
    List.Perm.flatMap_right itemPRecs (popMin_perm h)
  refine List.Perm.trans ?_ h1
  have h2 : heapPRecs (m :: rest)
      = m.pr :: (heapPRecs (advanceItem m) ++ heapPRecs rest) := by
    show itemPRecs m ++ heapPRecs rest = _
    rw [itemPRecs_advance]
    rfl
  rw [h2, heapPRecs_append]
  exact List.Perm.cons m.pr List.perm_append_comm

/-- The heap invariant survives a pop-and-advance step. -/
theorem wfHeap_pop {items : List MItem} {m : MItem} {rest : List MItem}
    (hwf : WFHeap items) (h : popMin items = some (m, rest)) :
    WFHeap (rest ++ advanceItem m) := by
  obtain ⟨hdist, hasc⟩ := hwf
  have hperm := popMin_perm h
  constructor
  · have hd1 : ((m :: rest).map (fun it => it.pr.prio)).Pairwise
        (fun a b => a ≠ b) :=
      (List.Perm.pairwise_iff (fun hab => hab.symm)
        (List.Perm.map _ hperm)).mpr hdist
    simp only [List.map_cons] at hd1
    rw [List.map_append]
    cases hr : m.rest with
    | nil =>
      rw [show advanceItem m = [] from by unfold advanceItem; rw [hr]]
      simp only [List.map_nil, List.append_nil]
      exact List.Pairwise.of_cons hd1
    | cons e r =>
      rw [show advanceItem m = [mkItem m.pr.prio e r] from by
        unfold advanceItem; rw [hr]]
      have hp : List.Perm
          (List.map (fun it => it.pr.prio) rest
            ++ List.map (fun it => it.pr.prio) [mkItem m.pr.prio e r])
          (m.pr.prio :: List.map (fun it => it.pr.prio) rest) :=
        List.perm_append_comm
      exact (List.Perm.pairwise_iff (fun hab => hab.symm) hp).mpr hd1
  · intro it hit
    rcases List.mem_append.mp hit with h1 | h2
    · exact hasc it (hperm.mem_iff.mp (List.mem_cons_of_mem _ h1))
    · have hm : m ∈ items := hperm.mem_iff.mp (List.mem_cons_self _ _)
      have hchain := hasc m hm
      cases hr : m.rest with
      | nil =>
        rw [show advanceItem m = [] from by unfold advanceItem; rw [hr]] at h2
        simp at h2
      | cons e r =>
        rw [show advanceItem m = [mkItem m.pr.prio e r] from by
          unfold advanceItem; rw [hr]] at h2
        have hit2 : it = mkItem m.pr.prio e r := by simpa using h2
        subst hit2
        have hchain2 : (m.pr.key :: (e :: r).map Entry.key).Pairwise
            (fun a b => bytesCmp a b = .lt) := by
          unfold itemChain at hchain
          rwa [hr] at hchain
        have h3 := List.Pairwise.of_cons hchain2
        simpa [itemChain] using h3

/-- The popped record is strictly `Less` than every record instance left in
the heap, its own later records included. -/
theorem pop_dominates {items : List MItem} {m : MItem} {rest : List MItem}
    (hwf : WFHeap items) (h : popMin items = some (m, rest)) :
    ∀ q ∈ heapPRecs (rest ++ advanceItem m), itemLess m.pr q = true := by
  obtain ⟨hdist, hasc⟩ := hwf
  intro q hq
  rw [heapPRecs_append] at hq
  rcases List.mem_append.mp hq with h1 | h2
  · obtain ⟨y, hy, hqy⟩ := List.mem_flatMap.mp h1
    have hmy : itemLess m.pr y.pr = true := popMin_min hdist h y hy
    have hyitems : y ∈ items :=
      (popMin_perm h).mem_iff.mp (List.mem_cons_of_mem _ hy)
    unfold itemPRecs at hqy
    rcases List.mem_cons.mp hqy with rfl | hq2
    · exact hmy
    · obtain ⟨e, he, rfl⟩ := List.mem_map.mp hq2
      have hch := hasc y hyitems
      unfold itemChain at hch
      have hk : bytesCmp y.pr.key e.key = .lt :=
        (List.pairwise_cons.mp hch).1 e.key (List.mem_map_of_mem Entry.key he)
      have hyq : itemLess y.pr (mkItem y.pr.prio e []).pr = true := by
        unfold itemLess
        rw [show (mkItem y.pr.prio e []).pr.key = e.key from rfl, hk]
      exact itemLess_trans hmy hyq
  · have hm : m ∈ items := (popMin_perm h).mem_iff.mp (List.mem_cons_self _ _)
    have hch := hasc m hm
    cases hr : m.rest with
    | nil =>
      rw [show advanceItem m = [] from by unfold advanceItem; rw [hr]] at h2
      simp [heapPRecs] at h2
    | cons e r =>
      rw [show advanceItem m = [mkItem m.pr.prio e r] from by
        unfold advanceItem; rw [hr]] at h2
      have h3 : q ∈ itemPRecs (mkItem m.pr.prio e r) := by
        simpa [heapPRecs] using h2
      rw [itemPRecs_mkItem] at h3
      obtain ⟨x, hx, rfl⟩ := List.mem_map.mp h3
      have hch2 : (m.pr.key :: (e :: r).map Entry.key).Pairwise
          (fun a b => bytesCmp a b = .lt) := by
        unfold itemChain at hch
        rwa [hr] at hch
      have hk : bytesCmp m.pr.key x.key = .lt :=
        (List.pairwise_cons.mp hch2).1 x.key (List.mem_map_of_mem Entry.key hx)
      unfold itemLess
      rw [show (mkItem m.pr.prio x []).pr.key = x.key from rfl, hk]

theorem popSeq_mem : ∀ (fuel : Nat) (items : List MItem) (p : PRec),
    p ∈ popSeq fuel items → p ∈ heapPRecs items := by
  intro fuel
  induction fuel with
  | zero =>
    intro items p hp
    simp [popSeq] at hp
  | succ n ih =>
    intro items p hp
    cases hpm : popMin items with
    | none =>
      rw [popSeq] at hp
      rw [hpm] at hp
      simp at hp
    | some mr =>
      obtain ⟨m, rest⟩ := mr
      have hstep : popSeq (n + 1) items
          = m.pr :: popSeq n (rest ++ advanceItem m) := by
        rw [popSeq]
        simp only [hpm]
      rw [hstep] at hp
      rcases List.mem_cons.mp hp with rfl | hp2
      · exact (heapPRecs_pop hpm).mem_iff.mp (List.mem_cons_self _ _)
      · exact (heapPRecs_pop hpm).mem_iff.mp
          (List.mem_cons_of_mem _ (ih _ p hp2))

/-- The popped-record sequence is sorted strictly by `Less`: key ascending,
equal keys newest-first. -/
theorem popSeq_sorted : ∀ (fuel : Nat) (items : List MItem), WFHeap items →
    (popSeq fuel items).Pairwise (fun p q => itemLess p q = true) := by
  intro fuel
  induction fuel with
  | zero =>
    intro items _
    simp [popSeq]
  | succ n ih =>
    intro items hwf
    cases hpm : popMin items with
    | none =>
      rw [popSeq]
      rw [hpm]
      simp
    | some mr =>
      obtain ⟨m, rest⟩ := mr
      have hstep : popSeq (n + 1) items
          = m.pr :: popSeq n (rest ++ advanceItem m) := by
        rw [popSeq]
        simp only [hpm]
      rw [hstep]
      refine List.Pairwise.cons ?_ (ih _ (wfHeap_pop hwf hpm))
      intro q hq
      exact pop_dominates hwf hpm q (popSeq_mem n _ q hq)

theorem mergeFuel_cons (x : MItem) (xs : List MItem) :
    mergeFuel (x :: xs) = 1 + x.rest.length + mergeFuel xs := by
  unfold mergeFuel
  simp [Nat.add_assoc]

theorem mergeFuel_perm {a b : List MItem} (h : List.Perm a b) :
    mergeFuel a = mergeFuel b := by
  unfold mergeFuel
  exact List.Perm.sum_eq (List.Perm.map _ h)

theorem mergeFuel_advance (m : MItem) :
    mergeFuel (advanceItem m) = m.rest.length := by
  unfold mergeFuel advanceItem
  cases hr : m.rest with
  | nil => simp
  | cons e r => simp [Nat.add_comm, mkItem]

/-- One loop iteration consumes exactly one unit of fuel. -/
theorem mergeFuel_pop {items : List MItem} {m : MItem} {rest : List MItem}
    (h : popMin items = some (m, rest)) :
    mergeFuel items = mergeFuel (rest ++ advanceItem m) + 1 := by
  rw [← mergeFuel_perm (popMin_perm h), mergeFuel_cons]
  have e2 : mergeFuel (rest ++ advanceItem m)
      = mergeFuel rest + m.rest.length := by
    unfold mergeFuel
    rw [List.map_append, List.sum_append]
    have h3 := mergeFuel_advance m
    unfold mergeFuel at h3
    rw [h3]
  rw [e2]
  omega

/-- With fuel equal to the heap's record count, the loop pops every record
instance exactly once. -/
theorem popSeq_perm : ∀ (fuel : Nat) (items : List MItem),
    fuel = mergeFuel items →
    List.Perm (popSeq fuel items) (heapPRecs items) := by
  intro fuel
  induction fuel with
  | zero =>
    intro items hf
    have hnil : items = [] := by
      cases items with
      | nil => rfl
      | cons x xs =>
        exfalso
        rw [mergeFuel_cons] at hf
        omega
    subst hnil
    simp [popSeq, heapPRecs]
  | succ n ih =>
    intro items hf
    cases hpm : popMin items with
    | none =>
      exfalso
      have hnil : items = [] := popMin_none.mp hpm
      subst hnil
      simp [mergeFuel] at hf
    | some mr =>
      obtain ⟨m, rest⟩ := mr
      have hstep : popSeq (n + 1) items
          = m.pr :: popSeq n (rest ++ advanceItem m) := by
        rw [popSeq]
        simp only [hpm]
      rw [hstep]
      have hfn : n = mergeFuel (rest ++ advanceItem m) := by
        have h4 := mergeFuel_pop hpm
        omega
      exact ((ih _ hfn).cons m.pr).trans (heapPRecs_pop hpm)

/-- The merge loop is the emission pass over the popped-record sequence. -/
theorem mergeLoop_eq_emit : ∀ (fuel : Nat) (items : List MItem)
    (lastKey : Option Bytes),
    mergeLoop fuel items lastKey = emitSeq (popSeq fuel items) lastKey := by
  intro fuel
  induction fuel with
  | zero =>
    intro items lk
    simp [mergeLoop, popSeq, emitSeq]
  | succ n ih =>
    intro items lk
    cases hpm : popMin items with
    | none =>
      rw [mergeLoop, popSeq]
      simp only [hpm]
      rfl
    | some mr =>
      obtain ⟨m, rest⟩ := mr
      rw [mergeLoop, popSeq]
      simp only [hpm]
      cases lk with
      | none =>
        show outRec m.pr :: mergeLoop n (rest ++ advanceItem m) (some m.pr.key)
            = outRec m.pr
              :: emitSeq (popSeq n (rest ++ advanceItem m)) (some m.pr.key)
        rw [ih]
      | some lkv =>
        show (if m.pr.key == lkv
              then mergeLoop n (rest ++ advanceItem m) (some lkv)
              else outRec m.pr
                :: mergeLoop n (rest ++ advanceItem m) (some m.pr.key))
            = (if m.pr.key == lkv
              then emitSeq (popSeq n (rest ++ advanceItem m)) (some lkv)
              else outRec m.pr
                :: emitSeq (popSeq n (rest ++ advanceItem m)) (some m.pr.key))
        rw [ih, ih]

/-- The emission pass over a `Less`-sorted popped sequence, relative to a
last-emitted key that lower-bounds the sequence: the emitted records have
strictly ascending keys, each has key strictly above the last-emitted key,
and each is the `outRec` of a sequence element of maximal priority among
the sequence's instances of its key. -/
theorem emitSeq_sorted_strict : ∀ (S : List PRec),
    S.Pairwise (fun p q => itemLess p q = true) →
    ∀ lk : Bytes, (∀ p ∈ S, bytesCmp lk p.key = .lt ∨ lk = p.key) →
    ((emitSeq S (some lk)).Pairwise (fun a b => bytesCmp a.key b.key = .lt) ∧
      ∀ x ∈ emitSeq S (some lk), bytesCmp lk x.key = .lt ∧
        ∃ p ∈ S, x = outRec p ∧
          ∀ q ∈ S, q.key = p.key → q.prio ≤ p.prio) := by
  intro S
  induction S with
  | nil =>
    intro _ lk _
    constructor
    · simp [emitSeq]
    · intro x hx
      simp [emitSeq] at hx
  | cons p rest ih =>
    intro hs lk hlk
    have hsTail := List.Pairwise.of_cons hs
    have hhead := (List.pairwise_cons.mp hs).1
    by_cases hk : (p.key == lk) = true
    · have hkey : p.key = lk := by simpa using hk
      have hstep : emitSeq (p :: rest) (some lk) = emitSeq rest (some lk) := by
        rw [emitSeq]
        simp [hk]
      rw [hstep]
      have hlk2 : ∀ q ∈ rest, bytesCmp lk q.key = .lt ∨ lk = q.key :=
        fun q hq => hlk q (List.mem_cons_of_mem _ hq)
      obtain ⟨ih1, ih2⟩ := ih hsTail lk hlk2
      refine ⟨ih1, ?_⟩
      intro x hx
      obtain ⟨hxlt, p2, hp2, hxeq, hdom⟩ := ih2 x hx
      refine ⟨hxlt, p2, List.mem_cons_of_mem _ hp2, hxeq, ?_⟩
      intro q hq hqk
      rcases List.mem_cons.mp hq with rfl | hq2
      · exfalso
        have hx2 : x.key = p2.key := by rw [hxeq, outRec_key]
        have h4 := hxlt
        rw [hx2, ← hqk, hkey] at h4
        rw [bytesCmp_refl] at h4
        simp at h4
      · exact hdom q hq2 hqk
    · have hkeyne : ¬ p.key = lk := by simpa using hk
      have hstep : emitSeq (p :: rest) (some lk)
          = outRec p :: emitSeq rest (some p.key) := by
        rw [emitSeq]
        simp [hk]
      rw [hstep]
      have hlkp : bytesCmp lk p.key = .lt := by
        rcases hlk p (List.mem_cons_self _ _) with h | h
        · exact h
        · exact absurd h.symm hkeyne
      have hlk3 : ∀ q ∈ rest, bytesCmp p.key q.key = .lt ∨ p.key = q.key :=
        fun q hq => itemLess_key_le (hhead q hq)
      obtain ⟨ih1, ih2⟩ := ih hsTail p.key hlk3
      constructor
      · refine List.Pairwise.cons ?_ ih1
        intro b hb
        rw [outRec_key]
        exact (ih2 b hb).1
      · intro x hx
        rcases List.mem_cons.mp hx with rfl | hx2
        · refine ⟨?_, p, List.mem_cons_self _ _, rfl, ?_⟩
          · rw [outRec_key]
            exact hlkp
          · intro q hq hqk
            rcases List.mem_cons.mp hq with rfl | hq2
            · exact Nat.le_refl _
            · exact Nat.le_of_lt (itemLess_eq_key_prio (hhead q hq2) hqk.symm)
        · obtain ⟨hxlt, p2, hp2, hxeq, hdom⟩ := ih2 x hx2
          refine ⟨bytesCmp_lt_trans _ _ _ hlkp hxlt, p2,
            List.mem_cons_of_mem _ hp2, hxeq, ?_⟩
          intro q hq hqk
          rcases List.mem_cons.mp hq with rfl | hq2
          · exfalso
            have hx2k : x.key = p2.key := by rw [hxeq, outRec_key]
            have h6 := hxlt
            rw [hx2k, ← hqk] at h6
            rw [bytesCmp_refl] at h6
            simp at h6
          · exact hdom q hq2 hqk

/-- Every key of a sorted popped sequence survives the emission pass,
provided it differs from the last emitted key. -/
theorem emitSeq_covers : ∀ (S : List PRec),
    S.Pairwise (fun p q => itemLess p q = true) →
    ∀ (lk : Bytes) (p : PRec), p ∈ S → ¬ p.key = lk →
    ∃ r ∈ emitSeq S (some lk), r.key = p.key := by
  intro S
  induction S with
  | nil =>
    intro _ lk p hp
    simp at hp
  | cons p0 rest ih =>
    intro hs lk p hp hne
    have hsTail := List.Pairwise.of_cons hs
    by_cases hk : (p0.key == lk) = true
    · have hstep : emitSeq (p0 :: rest) (some lk) = emitSeq rest (some lk) := by
        rw [emitSeq]
        simp [hk]
      rw [hstep]
      rcases List.mem_cons.mp hp with rfl | hp2
      · exact absurd (by simpa using hk) hne
      · exact ih hsTail lk p hp2 hne
    · have hstep : emitSeq (p0 :: rest) (some lk)
          = outRec p0 :: emitSeq rest (some p0.key) := by
        rw [emitSeq]
        simp [hk]
      rw [hstep]
      rcases List.mem_cons.mp hp with rfl | hp2
      · exact ⟨outRec p, List.mem_cons_self _ _, outRec_key p⟩
      · by_cases hpk : p.key = p0.key
        · exact ⟨outRec p0, List.mem_cons_self _ _, by rw [outRec_key, hpk]⟩
        · obtain ⟨r, hr, hrk⟩ := ih hsTail p0.key p hp2 hpk
          exact ⟨r, List.mem_cons_of_mem _ hr, hrk⟩

/-- Every key of a sorted popped sequence appears in the emitted output. -/
theorem emitSeq_covers_none (S : List PRec)
    (hs : S.Pairwise (fun p q => itemLess p q = true)) :
    ∀ p ∈ S, ∃ r ∈ emitSeq S none, r.key = p.key := by
  intro p hp
  cases S with
  | nil => simp at hp
  | cons p0 rest =>
    have hstep : emitSeq (p0 :: rest) none
        = outRec p0 :: emitSeq rest (some p0.key) := by
      rw [emitSeq]
    rw [hstep]
    rcases List.mem_cons.mp hp with rfl | hp2
    · exact ⟨outRec p, List.mem_cons_self _ _, outRec_key p⟩
    · by_cases hpk : p.key = p0.key
      · exact ⟨outRec p0, List.mem_cons_self _ _, by rw [outRec_key, hpk]⟩
      · obtain ⟨r, hr, hrk⟩ :=
          emitSeq_covers rest (List.Pairwise.of_cons hs) p0.key p hp2 hpk
        exact ⟨r, List.mem_cons_of_mem _ hr, hrk⟩

/-- Emission over the whole sorted popped sequence: ascending output keys,
and every output record is the newest instance of its key. -/
theorem emitSeq_none_spec (S : List PRec)
    (hs : S.Pairwise (fun p q => itemLess p q = true)) :
    ((emitSeq S none).Pairwise (fun a b => bytesCmp a.key b.key = .lt) ∧
      ∀ x ∈ emitSeq S none, ∃ p ∈ S, x = outRec p ∧
        ∀ q ∈ S, q.key = p.key → q.prio ≤ p.prio) := by
  cases S with
  | nil =>
    constructor
    · simp [emitSeq]
    · intro x hx
      simp [emitSeq] at hx
  | cons p rest =>
    have hsTail := List.Pairwise.of_cons hs
    have hhead := (List.pairwise_cons.mp hs).1
    have hstep : emitSeq (p :: rest) none
        = outRec p :: emitSeq rest (some p.key) := by
      rw [emitSeq]
    rw [hstep]
    obtain ⟨ih1, ih2⟩ := emitSeq_sorted_strict rest hsTail p.key
      (fun q hq => itemLess_key_le (hhead q hq))
    constructor
    · refine List.Pairwise.cons ?_ ih1
      intro b hb
      rw [outRec_key]
      exact (ih2 b hb).1
    · intro x hx
      rcases List.mem_cons.mp hx with rfl | hx2
      · refine ⟨p, List.mem_cons_self _ _, rfl, ?_⟩
        intro q hq hqk
        rcases List.mem_cons.mp hq with rfl | hq2
        · exact Nat.le_refl _
        · exact Nat.le_of_lt (itemLess_eq_key_prio (hhead q hq2) hqk.symm)
      · obtain ⟨hxlt, p2, hp2, hxeq, hdom⟩ := ih2 x hx2
        refine ⟨p2, List.mem_cons_of_mem _ hp2, hxeq, ?_⟩
        intro q hq hqk
        rcases List.mem_cons.mp hq with rfl | hq2
        · exfalso
          have hx2k : x.key = p2.key := by rw [hxeq, outRec_key]
          have h6 := hxlt
          rw [hx2k, ← hqk] at h6
          rw [bytesCmp_refl] at h6
          simp at h6
        · exact hdom q hq2 hqk

/-- The initial heap holds exactly the record instances of all inputs. -/
theorem heapPRecs_initItems (sources : List (List Entry)) :
    heapPRecs (initItems sources) = allPRecs sources := by
  unfold heapPRecs initItems allPRecs
  have hgen : ∀ (l : List (Nat × List Entry)),
      (l.filterMap (fun is =>
        match is.2 with
        | [] => none
        | e :: rest => some (mkItem is.1 e rest))).flatMap itemPRecs
      = l.flatMap (fun is => is.2.map (fun e => (mkItem is.1 e []).pr)) := by
    intro l
    induction l with
    | nil => rfl
    | cons hd tl ih =>
      obtain ⟨i, src⟩ := hd
      cases src with
      | nil => simpa using ih
      | cons e rest =>
        simp only [List.filterMap_cons, List.flatMap_cons]
        rw [itemPRecs_mkItem, ih]
  exact hgen sources.enum

theorem initKeep_prio_mem : ∀ (l : List (Nat × List Entry)) (z : Nat),
    z ∈ ((l.filterMap (fun is =>
        match is.2 with
        | [] => none
        | e :: rest => some (mkItem is.1 e rest))).map (fun it => it.pr.prio)) →
    ∃ b ∈ l, z = b.1 := by
  intro l
  induction l with
  | nil =>
    intro z hz
    simp at hz
  | cons hd tl ih =>
    intro z hz
    obtain ⟨i, src⟩ := hd
    cases src with
    | nil =>
      simp only [List.filterMap_cons] at hz
      obtain ⟨b, hb, hzb⟩ := ih z hz
      exact ⟨b, List.mem_cons_of_mem _ hb, hzb⟩
    | cons e rest =>
      simp only [List.filterMap_cons, List.map_cons] at hz
      rcases List.mem_cons.mp hz with h | h
      · exact ⟨(i, e :: rest), List.mem_cons_self _ _, h⟩
      · obtain ⟨b, hb, hzb⟩ := ih z h
        exact ⟨b, List.mem_cons_of_mem _ hb, hzb⟩

/-- Item priorities of the initial heap are pairwise distinct: they are
first components of the strictly increasing `enum` indices. -/
theorem initItems_prios : ∀ (l : List (Nat × List Entry)),
    l.Pairwise (fun a b => a.1 < b.1) →
    ((l.filterMap (fun is =>
        match is.2 with
        | [] => none
        | e :: rest => some (mkItem is.1 e rest))).map
      (fun it => it.pr.prio)).Pairwise (fun a b => a ≠ b) := by
  intro l
  induction l with
  | nil =>
    intro _
    simp
  | cons hd tl ih =>
    intro hp
    obtain ⟨i, src⟩ := hd
    have hpt := List.Pairwise.of_cons hp
    have hhd := (List.pairwise_cons.mp hp).1
    cases src with
    | nil =>
      simp only [List.filterMap_cons]
      exact ih hpt
    | cons e rest =>
      simp only [List.filterMap_cons, List.map_cons]
      refine List.Pairwise.cons ?_ (ih hpt)
      intro z hz
      obtain ⟨b, hb, rfl⟩ := initKeep_prio_mem tl z hz
      exact Nat.ne_of_lt (hhd b hb)

theorem enum_fst_lt (l : List (List Entry)) :
    l.enum.Pairwise (fun a b => a.1 < b.1) := by
  have h1 : (l.enum.map Prod.fst).Pairwise (fun a b => a < b) := by
    rw [List.enum_map_fst]
    exact List.sorted_lt_range l.length
  exact List.pairwise_map.mp h1

/-- Each initial item's key chain is its source's key sequence, strictly
ascending for SSTable sources. -/
theorem initItems_chains (sources : List (List Entry))
    (hsrc : ∀ src ∈ sources, src.Pairwise (fun a b => bytesCmp a.key b.key = .lt)) :
    ∀ it ∈ initItems sources,
      (itemChain it).Pairwise (fun a b => bytesCmp a b = .lt) := by
  intro it hit
  unfold initItems at hit
  obtain ⟨is, his, hkeep⟩ := List.mem_filterMap.mp hit
  obtain ⟨i, src⟩ := is
  cases src with
  | nil => simp at hkeep
  | cons e rest =>
    have hit2 : mkItem i e rest = it := by simpa using hkeep
    have hsrcmem : (e :: rest) ∈ sources := List.snd_mem_of_mem_enum his
    have hp := hsrc _ hsrcmem
    rw [← hit2]
    have hcc : itemChain (mkItem i e rest) = (e :: rest).map Entry.key := rfl
    rw [hcc, List.pairwise_map]
    exact hp

/-! ## Claim C2

The merge loop pops `Less`-minimal items from the heap (key ascending,
equal keys newest-source-first), skips a popped record whose key equals the
last written key, advances iterators and writes `DeleteEntry` for deleted
records.  Factored as the emission pass over the popped-record sequence,
which is `Less`-sorted and a permutation of all input record instances,
this yields the claim: ascending distinct output keys, one record per
input key, equal to the highest-priority input's record, tombstones
written (`outRec` maps a deleted instance to a `DeleteEntry` record,
never dropping it). -/

/-- **C2.**  For sources given earliest-first with priority = source index
(higher = newer), each with strictly ascending keys: `Merge` writes an
output whose keys are strictly ascending; a key appears in the output
exactly when some input holds it; and every output record is `outRec p`
for an input instance `p` of that key whose priority is maximal among the
input instances of that key — `outRec` writes a `DeleteEntry` for a
deleted instance, so tombstones are retained. -/
theorem c2_merge_newest_ascending (sources : List (List Entry))
    (hsrc : ∀ src ∈ sources, src.Pairwise (fun a b => bytesCmp a.key b.key = .lt)) :
    (mergeRun sources).Pairwise (fun a b => bytesCmp a.key b.key = .lt) ∧
    (∀ k : Bytes, (∃ r ∈ mergeRun sources, r.key = k)
        ↔ ∃ p ∈ allPRecs sources, p.key = k) ∧
    (∀ r ∈ mergeRun sources, ∃ p ∈ allPRecs sources, r = outRec p ∧
        ∀ q ∈ allPRecs sources, q.key = p.key → q.prio ≤ p.prio) := by
  have hwf : WFHeap (initItems sources) := by
    constructor
    · exact initItems_prios sources.enum (enum_fst_lt sources)
    · exact initItems_chains sources hsrc
  have hperm : List.Perm
      (popSeq (mergeFuel (initItems sources)) (initItems sources))
      (allPRecs sources) := by
    rw [← heapPRecs_initItems]
    exact popSeq_perm _ _ rfl
  have hsortedS := popSeq_sorted (mergeFuel (initItems sources))
    (initItems sources) hwf
  have hout : mergeRun sources
      = emitSeq (popSeq (mergeFuel (initItems sources)) (initItems sources))
          none := by
    unfold mergeRun
    exact mergeLoop_eq_emit _ _ none
  obtain ⟨e1, e2⟩ := emitSeq_none_spec
    (popSeq (mergeFuel (initItems sources)) (initItems sources)) hsortedS
  refine ⟨?_, ?_, ?_⟩
  · rw [hout]
    exact e1
  · intro k
    constructor
    · rintro ⟨r, hr, hrk⟩
      rw [hout] at hr
      obtain ⟨p, hpS, hre, _⟩ := e2 r hr
      refine ⟨p, hperm.mem_iff.mp hpS, ?_⟩
      rw [← outRec_key p, ← hre]
      exact hrk
    · rintro ⟨p, hp, hpk⟩
      obtain ⟨r, hrE, hrk⟩ := emitSeq_covers_none
        (popSeq (mergeFuel (initItems sources)) (initItems sources))
        hsortedS p (hperm.mem_iff.mpr hp)
      refine ⟨r, ?_, ?_⟩
      · rw [hout]
        exact hrE
      · rw [hrk, hpk]
  · intro r hr
    rw [hout] at hr
    obtain ⟨p, hpS, hre, hdom⟩ := e2 r hr
    refine ⟨p, hperm.mem_iff.mp hpS, hre, ?_⟩
    intro q hq hqk
    exact hdom q (hperm.mem_iff.mpr hq) hqk

/-- Witness for C2 at concrete sources: the older source holds
`a ↦ [1]` and a tombstone for `b`; the newer holds `a ↦ [9]`.  The
hypotheses hold and the conclusion follows by the theorem. -/
theorem c2_witness :
    (∀ src ∈ ([[⟨0, [97], [1]⟩, ⟨1, [98], []⟩], [⟨0, [97], [9]⟩]] :
        List (List Entry)),
      src.Pairwise (fun a b => bytesCmp a.key b.key = .lt)) ∧
    ((mergeRun [[⟨0, [97], [1]⟩, ⟨1, [98], []⟩], [⟨0, [97], [9]⟩]]).Pairwise
        (fun a b => bytesCmp a.key b.key = .lt) ∧
      (∀ k : Bytes,
        (∃ r ∈ mergeRun [[⟨0, [97], [1]⟩, ⟨1, [98], []⟩], [⟨0, [97], [9]⟩]],
            r.key = k)
          ↔ ∃ p ∈ allPRecs [[⟨0, [97], [1]⟩, ⟨1, [98], []⟩], [⟨0, [97], [9]⟩]],
              p.key = k) ∧
      (∀ r ∈ mergeRun [[⟨0, [97], [1]⟩, ⟨1, [98], []⟩], [⟨0, [97], [9]⟩]],
        ∃ p ∈ allPRecs [[⟨0, [97], [1]⟩, ⟨1, [98], []⟩], [⟨0, [97], [9]⟩]],
          r = outRec p ∧
          ∀ q ∈ allPRecs [[⟨0, [97], [1]⟩, ⟨1, [98], []⟩], [⟨0, [97], [9]⟩]],
            q.key = p.key → q.prio ≤ p.prio)) :=
  ⟨by decide,
    c2_merge_newest_ascending [[⟨0, [97], [1]⟩, ⟨1, [98], []⟩], [⟨0, [97], [9]⟩]]
      (by decide)⟩

/-! ## Claim C3

`Reader.Get` binary-searches with `sort.Search(len(index), index[i].Key >
key)` and scans the block at `pos := i - 1`.  The scanned position is
therefore the largest index position whose key is less than **or equal
to** the target, not — as the claim says — strictly less: at a target
equal to an indexed key the two disagree, and the strictly-less reading
misses a stored key (`c3_strict_less_counterexample`).  The claim's other
parts hold: NotFound is immediate exactly when the target is smaller than
the first indexed key, the block runs to the next index entry's offset (or
`indexBase` for the last position), and every key stored in the data
section is found — NotFound exactly for tombstoned or absent keys. -/

/-- **C3**, corrected: the scanned position is the largest index position
with key ≤ target (the `sort.Search` insertion position minus one), not
"strictly less".  For a table written from key-sorted records: the reader
opens to the writer's sparse index with `indexBase` at the end of the data
section; the immediate-NotFound test `pos < 0` holds exactly when no index
key is ≤ the target, and otherwise the position scanned is the largest
such position; and `Get` answers every lookup by the unique stored record
with the target key — its value for a `Set` record, NotFound for a
tombstone or an absent key. -/
theorem c3_block_search_le (interval : Nat) (recs : List Entry) (k : Bytes)
    (hwf : ∀ e ∈ recs, e.etype < 256 ∧ e.key.length < 2 ^ 32 ∧ e.value.length < 2 ^ 32)
    (hsorted : recs.Pairwise (fun a b => bytesCmp a.key b.key = .lt))
    (hdlen : (recs.map encLen).sum < 2 ^ 64)
    (hslen : (encodeIdxSection (sparseIndex interval recs)).length < 2 ^ 64) :
    loadIndex (buildTable interval recs).file
        = some (sparseIndex interval recs, (recs.map encLen).sum) ∧
    (searchGt (sparseIndex interval recs) k = 0
        ↔ largestLE (sparseIndex interval recs) k = none) ∧
    (0 < searchGt (sparseIndex interval recs) k →
        largestLE (sparseIndex interval recs) k
          = some (searchGt (sparseIndex interval recs) k - 1)) ∧
    readerGet (buildTable interval recs).file (sparseIndex interval recs)
        ((recs.map encLen).sum) k
      = (match recs.find? (fun e => e.key == k) with
        | some e => if e.etype = delCode then none else some e
        | none => none) := by
  have hk : ∀ e ∈ recs, e.key.length < 2 ^ 32 := fun e he => (hwf e he).2.1
  refine ⟨loadIndex_buildTable interval recs hk hdlen hslen, ?_, ?_, ?_⟩
  · exact (search_largestLE _ k (sparseIndex_sorted interval recs hsorted)).1
  · exact (search_largestLE _ k (sparseIndex_sorted interval recs hsorted)).2
  · rw [buildTable_file_shape]
    exact readerGet_data interval recs _ k hwf hsorted

set_option maxRecDepth 10000 in
/-- Counterexample to the claim's strictly-less reading of the binary
search: a table holding `a ↦ [1]` and `c ↦ [2]`, every record indexed
(`indexInterval = 1`), target key `c` (an indexed key).  `Reader.Get`
(predicate `index[i].Key > key`, position `i - 1`) scans the block of `c`
and finds it; the strictly-less variant (`readerGetClaim`) lands one block
earlier and reports NotFound for a stored, live key. -/
theorem c3_strict_less_counterexample :
    loadIndex (buildTable 1 [⟨0, [97], [1]⟩, ⟨0, [99], [2]⟩]).file
        = some (sparseIndex 1 [⟨0, [97], [1]⟩, ⟨0, [99], [2]⟩], 22) ∧
    readerGet (buildTable 1 [⟨0, [97], [1]⟩, ⟨0, [99], [2]⟩]).file
        (sparseIndex 1 [⟨0, [97], [1]⟩, ⟨0, [99], [2]⟩]) 22 [99]
      = some ⟨0, [99], [2]⟩ ∧
    readerGetClaim (buildTable 1 [⟨0, [97], [1]⟩, ⟨0, [99], [2]⟩]).file
        (sparseIndex 1 [⟨0, [97], [1]⟩, ⟨0, [99], [2]⟩]) 22 [99]
      = none := by
  refine ⟨?_, ?_, ?_⟩
  · rw [loadIndex_buildTable 1 _ (by decide) (by decide) (by decide)]
    rfl
  · rw [buildTable_file_shape]
    have h := readerGet_data 1 [⟨0, [97], [1]⟩, ⟨0, [99], [2]⟩]
      (encodeIdxSection (sparseIndex 1 [⟨0, [97], [1]⟩, ⟨0, [99], [2]⟩])
        ++ (u64be ([⟨0, [97], [1]⟩, ⟨0, [99], [2]⟩].flatMap encodeEntry).length
            ++ u64be (encodeIdxSection
                (sparseIndex 1 [⟨0, [97], [1]⟩, ⟨0, [99], [2]⟩])).length))
      [99] (by decide) (by decide)
    rw [show (([⟨0, [97], [1]⟩, ⟨0, [99], [2]⟩] : List Entry).map encLen).sum = 22
      from rfl] at h
    rw [h]
    rfl
  · show (if (scanLoop (buildTable 1 [⟨0, [97], [1]⟩, ⟨0, [99], [2]⟩]).file
              [99] 11 0 none false).2
          then none
          else (scanLoop (buildTable 1 [⟨0, [97], [1]⟩, ⟨0, [99], [2]⟩]).file
              [99] 11 0 none false).1)
        = none
    have hu : scanLoop (buildTable 1 [⟨0, [97], [1]⟩, ⟨0, [99], [2]⟩]).file
        [99] 11 0 none false = (none, false) := by
      rw [scanLoop]
      rw [dif_pos (show (0 : Nat) < 11 by norm_num)]
      simp only [show readEntryAt (buildTable 1 [⟨0, [97], [1]⟩, ⟨0, [99], [2]⟩]).file 0
          = some ((⟨0, [97], [1]⟩ : Entry), 11) from rfl]
      rw [show bytesCmp [97] [99] = Ordering.lt from rfl]
      norm_num
      rw [scanLoop]
      rw [dif_neg (show ¬ (11 : Nat) < 11 by norm_num)]
      decide
    rw [hu]
    rfl

/-- Witness for C3 at a concrete table: a `Set` record for `a` and a
tombstone for `b`, `indexInterval = 2`, target `a`; the hypotheses hold
and the conclusion follows by the theorem. -/
theorem c3_witness :
    ((∀ e ∈ ([⟨0, [97], [1]⟩, ⟨1, [98], []⟩] : List Entry),
        e.etype < 256 ∧ e.key.length < 2 ^ 32 ∧ e.value.length < 2 ^ 32) ∧
      ([⟨0, [97], [1]⟩, ⟨1, [98], []⟩] : List Entry).Pairwise
        (fun a b => bytesCmp a.key b.key = .lt) ∧
      (([⟨0, [97], [1]⟩, ⟨1, [98], []⟩] : List Entry).map encLen).sum < 2 ^ 64 ∧
      (encodeIdxSection (sparseIndex 2 [⟨0, [97], [1]⟩, ⟨1, [98], []⟩])).length
        < 2 ^ 64) ∧
    (loadIndex (buildTable 2 [⟨0, [97], [1]⟩, ⟨1, [98], []⟩]).file
        = some (sparseIndex 2 [⟨0, [97], [1]⟩, ⟨1, [98], []⟩],
            (([⟨0, [97], [1]⟩, ⟨1, [98], []⟩] : List Entry).map encLen).sum) ∧
      (searchGt (sparseIndex 2 [⟨0, [97], [1]⟩, ⟨1, [98], []⟩]) [97] = 0
          ↔ largestLE (sparseIndex 2 [⟨0, [97], [1]⟩, ⟨1, [98], []⟩]) [97] = none) ∧
      (0 < searchGt (sparseIndex 2 [⟨0, [97], [1]⟩, ⟨1, [98], []⟩]) [97] →
          largestLE (sparseIndex 2 [⟨0, [97], [1]⟩, ⟨1, [98], []⟩]) [97]
            = some (searchGt (sparseIndex 2 [⟨0, [97], [1]⟩, ⟨1, [98], []⟩]) [97] - 1)) ∧
      readerGet (buildTable 2 [⟨0, [97], [1]⟩, ⟨1, [98], []⟩]).file
          (sparseIndex 2 [⟨0, [97], [1]⟩, ⟨1, [98], []⟩])
          ((([⟨0, [97], [1]⟩, ⟨1, [98], []⟩] : List Entry).map encLen).sum) [97]
        = (match ([⟨0, [97], [1]⟩, ⟨1, [98], []⟩] : List Entry).find?
              (fun e => e.key == [97]) with
          | some e => if e.etype = delCode then none else some e
          | none => none)) :=
  ⟨⟨by decide, by decide, by decide, by decide⟩,
    c3_block_search_le 2 [⟨0, [97], [1]⟩, ⟨1, [98], []⟩] [97]
      (by decide) (by decide) (by decide) (by decide)⟩

/-! ## Claim C1

After `Delete(k)`, `Close()`, re-`Open()`, `Get(k)` is indeed not found
(the un-truncated WAL replays the tombstone into the fresh memtable, which
`Get` consults first).  But the second half of the claim fails in the code:
`SkipList.Entries` copies only `Key` and `Value` into the returned
`record.Entry` values, so every snapshot entry reaches `flushMemtable` with
the zero type `record.PutEntry`, the `case storage.DeleteEntry` branch is
dead, and a memtable tombstone is flushed as a `PutEntry` data record with
an empty value. -/

/-- Claim C1, evaluated at the failing input: a memtable holding the
tombstone left by `Put "a" "v"; Delete "a"` stores a `Delete`-typed record,
yet the flush path writes it to the SSTable as a `Set`-typed (`PutEntry`)
record with empty value — no `DeleteEntry` record is written at all. -/
theorem c1_flush_writes_tombstone_as_put :
    slGet (runMemOps [.put [97] [118], .del [97]]) [97] = some ⟨delCode, []⟩ ∧
    flushRecords (runMemOps [.put [97] [118], .del [97]]) = [⟨setCode, [97], []⟩] := by
  constructor <;> rfl

/-! ## Claim C4

`SkipList.Put` over an existing key replaces the stored record and returns
without touching `size` (`current.entry = entry; return`), so the claimed
`+ new_value_len − old_value_len` update never happens and `Size()` drifts
from the exact byte sum as soon as a key is overwritten. -/

/-- Claim C4, evaluated at the failing input: after `Put "a" "xx"` then
`Put "a" "xxxx"`, `Size()` still reports 3 while the exact sum of
`len(key) + len(value)` over stored records is 5. -/
theorem c4_put_overwrite_size_unchanged :
    slSize (runMemOps [.put [97] [120, 120], .put [97] [120, 120, 120, 120]]) = 3 ∧
    storedBytes (runMemOps [.put [97] [120, 120], .put [97] [120, 120, 120, 120]]) = 5 := by
  constructor <;> rfl

/-! ## Claim C5

`Engine.Get` iterates `for _, mt := range e.immutableMemtables`, and `Put`
appends the most recently frozen memtable at the end of that slice, so the
immutable memtables are consulted **oldest-first**, not newest-first, and
the first (oldest) memtable containing the key wins. -/

/-- Claim C5, evaluated at the failing input: with two frozen memtables
both holding key `k` — the earlier one with value `v1`, the most recently
frozen one with value `v2` — and the active memtable missing `k`,
`Engine.Get` returns `v1`, the record of the **earliest** frozen memtable,
not `v2`. -/
theorem c5_immutables_oldest_first :
    engineGet slEmpty
      [memPut slEmpty [107] [118, 49], memPut slEmpty [107] [118, 50]] [] [107]
      = some [118, 49] ∧ ([118, 49] : Bytes) ≠ [118, 50] := by
  constructor
  · rfl
  · decide

/-! ## Claim C7

Every error path of `CompactionManager.compact` runs a cleanup loop that
`Close()`s the input readers while they stay registered in `tiers[tier]`;
and when `NewReader` on the merged output fails after `finalizeAndCleanup`
already succeeded, the input files have also been `os.Remove`d even though
`tiers[tier]` still lists their readers.  The tier state is therefore not
"unchanged" on failure. -/

/-- Claim C7, evaluated at two failing inputs over a tier holding two open
readers (files 0 and 1), output file number 5.  When `NewWriter` fails, the
step errors with both input readers closed though still registered in
`tiers[0]`.  When the final `NewReader` fails, the step errors with the
input readers closed, their files already deleted from disk (only the
unregistered output file 5 remains), and `tiers[0]` still listing them. -/
theorem c7_failed_compaction_closes_inputs :
    compactModel ⟨true, false, false, false⟩ ⟨[[⟨0, true⟩, ⟨1, true⟩]], [0, 1]⟩ 0 5
      = (true, ⟨[[⟨0, false⟩, ⟨1, false⟩], []], [0, 1]⟩) ∧
    compactModel ⟨false, false, false, true⟩ ⟨[[⟨0, true⟩, ⟨1, true⟩]], [0, 1]⟩ 0 5
      = (true, ⟨[[⟨0, false⟩, ⟨1, false⟩], []], [5]⟩) := by
  constructor <;> rfl

/-! ## Claim C8

The buffered WAL the engine constructs (`NewWAL(path, flushThreshold,
flushInterval)`) is not part of the sources — only older unbuffered WAL
variants appear — so its `Close` is modelled from the spec (§4.3): guarded
by the `closed` flag, draining once, reporting a first-close I/O error but
returning success afterwards. -/

/-- Claim C8: for every WAL state — whether the first `Close` succeeds or
reports an I/O error (`closeIOFails`) — the second `Close` returns success,
leaves the state unchanged, and hence every later `Close` returns success
as well. -/
theorem c8_wal_close_idempotent (w : WALState) :
    (walClose (walClose w).2).1 = some () ∧
    (walClose (walClose w).2).2 = (walClose w).2 := by
  unfold walClose
  rcases w with ⟨c, b, f⟩
  cases c <;> cases f <;> simp

/-! ## Claim C10

`Engine.Get` returns `([]byte, bool)` — no error.  In the tier loop the
only test is `err == nil`: a reader whose `Get` failed for any reason is
passed over exactly like one that reported key-not-found, and when every
probe errors the loop falls through to `return nil, false`. -/

/-- Claim C10: replacing every I/O-error probe outcome by key-not-found
never changes what `Engine.Get` returns (a read failure is invisible at the
interface), and when no table yields the key — all probes failing with
either error — the result is `(nil, false)`. -/
theorem c10_get_error_channel_silent :
    (∀ (mem : SkipL) (immutables : List SkipL) (tiers : List (List RdOutcome)) (key : Bytes),
       engineGet mem immutables (maskIOErrors tiers) key = engineGet mem immutables tiers key) ∧
    (∀ tiers : List (List RdOutcome),
       (∀ t ∈ tiers, ∀ o ∈ t, o = .notFound ∨ o = .ioError) → engineDiskGet tiers = none) := by
  have hdisk : ∀ tiers : List (List RdOutcome),
      engineDiskGet (maskIOErrors tiers) = engineDiskGet tiers := by
    intro tiers
    unfold engineDiskGet maskIOErrors
    rw [List.findSome?_map]
    have : ∀ tier : List RdOutcome,
        ((List.map (fun o => match o with | .ioError => .notFound | o => o) tier).reverse.findSome?
          rdStep) = tier.reverse.findSome? rdStep := by
      intro tier
      rw [← List.map_reverse, List.findSome?_map]
      congr 1
      funext o
      cases o <;> rfl
    simp only [Function.comp_def, this]
  constructor
  · intro mem immutables tiers key
    unfold engineGet
    rw [hdisk]
  · intro tiers h
    unfold engineDiskGet
    have : tiers.findSome? (fun tier => tier.reverse.findSome? rdStep) = none := by
      rw [List.findSome?_eq_none_iff]
      intro t ht
      rw [List.findSome?_eq_none_iff]
      intro o ho
      rcases h t ht o (List.mem_reverse.mp ho) with rfl | rfl <;> rfl
    rw [this]

/-- Witness for claim C10 at a concrete input: one tier holding a reader
whose probe fails with an I/O error and one whose probe reports
key-not-found. -/
theorem c10_witness :
    (∀ t ∈ [[RdOutcome.ioError], [RdOutcome.notFound]], ∀ o ∈ t,
       o = RdOutcome.notFound ∨ o = RdOutcome.ioError) ∧
    engineDiskGet [[RdOutcome.ioError], [RdOutcome.notFound]] = none :=
  ⟨by decide, c10_get_error_channel_silent.2 _ (by decide)⟩

end GravelDB
